import Mathlib

/-!
Verification of the template-interpolation and region-tracking engine of
`common/ui.py` (class `Interface`): `render`, `adjust`, `get_keyed_content`,
`clear_regions` and the `gs_new_content_and_regions` view command.

Strings are modelled as `List Char`.  Python's `str.find` is modelled by
`strFind`, string splicing and slicing by `replaceAt` and `sliceN`.  The per-key
substitution loop of `Interface.render` (which can diverge) is modelled with
explicit fuel (`substLoop`); `none` means the loop did not finish within the
given fuel, and theorems about divergence quantify over all fuel values.
-/

namespace GitSavvy

/-- Keys (placeholder identifiers) are strings, modelled as `List Char`. -/
abbrev Key := List Char

/-- Region: `(key, [start, end])` exactly as appended by `Interface.render`.
Coordinates are `Int` because `adjust` adds a possibly negative delta. -/
abbrev Region := Key × Int × Int

/-- Placeholder text for a key: the Python expression `"{" + key + "}"`. -/
def pat (k : Key) : List Char := '{' :: (k ++ ['}'])

/-- Character-level well-formedness: contains neither brace character. -/
def braceFree (s : List Char) : Prop := '{' ∉ s ∧ '}' ∉ s

instance (s : List Char) : Decidable (braceFree s) :=
  inferInstanceAs (Decidable (_ ∧ _))

/-- Scanning helper for `strFind`: try positions `p, p+1, ...`, at most `fuel`
of them, returning the first at which `pt` occurs in `text`. -/
def findAux (text pt : List Char) : Nat → Nat → Option Nat
  | _, 0 => none
  | p, fuel + 1 => if pt <+: text.drop p then some p else findAux text pt (p + 1) fuel

/-- Model of Python `text.find(pt, start)`, returning `none` instead of `-1`.
`Interface.render` always searches with start position `0` (its `cursor`
variable is initialised to `0` and never advanced). -/
def strFind (text pt : List Char) (start : Nat) : Option Nat :=
  findAux text pt start (text.length + 1 - start)

/-- Model of `rendered[:match] + new_content + rendered[match+interpol_len:]`. -/
def replaceAt (text : List Char) (m plen : Nat) (val : List Char) : List Char :=
  text.take m ++ val ++ text.drop (m + plen)

/-- Model of Python slicing `text[s:e]` for natural indices. -/
def sliceN (text : List Char) (s e : Nat) : List Char := (text.take e).drop s

/-- Model of the static method `Interface.adjust`: for every region whose
recorded start is strictly greater than `idx`, add `new_len - orig_len` to
both start and end (the Python loop mutates the list in place; we return the
updated list). -/
def adjust : List Region → Int → Int → Int → List Region
  | [], _, _, _ => []
  | r :: rest, idx, origLen, newLen =>
      (if r.2.1 > idx then (r.1, r.2.1 + (newLen - origLen), r.2.2 + (newLen - origLen)) else r)
        :: adjust rest idx origLen newLen

/-- Model of the inner `while match >= 0` loop of `Interface.render` for one
key: repeatedly find the placeholder (search always restarts at position `0`),
adjust previously recorded regions, append the new region, and splice in the
content.  `fuel` bounds the number of loop tests; `none` means the loop did
not terminate within `fuel` steps. -/
def substLoop : Nat → Key → List Char → List Region → List Char → Option (List Region × List Char)
  | 0, _, _, _, _ => none
  | fuel + 1, k, v, regions, text =>
      match strFind text (pat k) 0 with
      | none => some (regions, text)
      | some m =>
          substLoop fuel k v
            (adjust regions (m : Int) ((pat k).length : Int) (v.length : Int)
              ++ [(k, (m : Int), (m : Int) + (v.length : Int))])
            (replaceAt text m (pat k).length v)

/-- Model of the outer `for key, new_content in keyed_content.items()` loop of
`Interface.render`, threading the region list and the partially substituted
text through the per-key loops. -/
def renderSteps (fuel : Nat) : List (Key × List Char) → List Region × List Char → Option (List Region × List Char)
  | [], st => some st
  | (k, v) :: rest, (regions, text) =>
      match substLoop fuel k v regions text with
      | none => none
      | some st => renderSteps fuel rest st

/-- Model of the substitution part of `Interface.render`: starting from the
template with an empty region list, process the keyed content in mapping
order; the result is the pair handed to `gs_new_content_and_regions`. -/
def render (fuel : Nat) (template : List Char) (content : List (Key × List Char)) :
    Option (List Char × List Region) :=
  (renderSteps fuel content ([], template)).map (fun st => (st.2, st.1))

/-- Ordered-mapping lookup: the value recorded for a key by the first entry
carrying that key (model of `keyed_content[key]`). -/
def vOf : List (Key × List Char) → Key → Option (List Char)
  | [], _ => none
  | (k', v) :: rest, k => if k' = k then some v else vOf rest k

/-- C2 helper: `adjust` preserves the length of the region list. -/
theorem adjust_length (R : List Region) (idx origLen newLen : Int) :
    (adjust R idx origLen newLen).length = R.length := by
  induction R with
  | nil => rfl
  | cons r rest ih => simp [adjust, ih]

/-- C2 helper: `adjust` acts pointwise on the region list. -/
theorem adjust_get (R : List Region) (idx origLen newLen : Int) (i : Nat) (h : i < R.length)
    (h' : i < (adjust R idx origLen newLen).length) :
    (adjust R idx origLen newLen).get ⟨i, h'⟩ =
      (if (R.get ⟨i, h⟩).2.1 > idx then
        ((R.get ⟨i, h⟩).1, (R.get ⟨i, h⟩).2.1 + (newLen - origLen),
          (R.get ⟨i, h⟩).2.2 + (newLen - origLen))
      else R.get ⟨i, h⟩) := by
  induction R generalizing i with
  | nil => exact absurd h (Nat.not_lt_zero i)
  | cons r rest ih =>
      cases i with
      | zero => rfl
      | succ j =>
          simp only [adjust, List.get] at h' ⊢
          exact ih j (Nat.lt_of_succ_lt_succ h) (by simpa [adjust_length] using h')

/-- C2: `adjust(R, i, orig_len, new_len)` leaves every region whose start is
at most `i` unchanged and shifts start and end of every region whose start is
strictly greater than `i` by exactly `d = new_len - orig_len`, preserving each
region's own length. -/
theorem adjust_invariant (R : List Region) (idx origLen newLen : Int) (i : Nat)
    (h : i < R.length) :
    (adjust R idx origLen newLen).length = R.length ∧
    ∀ h' : i < (adjust R idx origLen newLen).length,
      ((R.get ⟨i, h⟩).2.1 ≤ idx → (adjust R idx origLen newLen).get ⟨i, h'⟩ = R.get ⟨i, h⟩) ∧
      ((R.get ⟨i, h⟩).2.1 > idx →
        (adjust R idx origLen newLen).get ⟨i, h'⟩ =
          ((R.get ⟨i, h⟩).1, (R.get ⟨i, h⟩).2.1 + (newLen - origLen),
            (R.get ⟨i, h⟩).2.2 + (newLen - origLen))) ∧
      ((adjust R idx origLen newLen).get ⟨i, h'⟩).2.2 - ((adjust R idx origLen newLen).get ⟨i, h'⟩).2.1 =
        (R.get ⟨i, h⟩).2.2 - (R.get ⟨i, h⟩).2.1 := by
  refine ⟨adjust_length R idx origLen newLen, fun h' => ?_⟩
  rw [adjust_get R idx origLen newLen i h h']
  by_cases hc : (R.get ⟨i, h⟩).2.1 > idx
  · rw [if_pos hc]
    refine ⟨fun hle => absurd hc (not_lt.mpr hle), fun _ => rfl, ?_⟩
    ring
  · rw [if_neg hc]
    exact ⟨fun _ => rfl, fun hgt => absurd hgt hc, rfl⟩

/-- C2 witness: the invariant evaluated at a concrete region list, index and
length pair. -/
theorem adjust_invariant_witness :
    (adjust [(['a'], 0, 1), (['b'], 5, 7)] 2 1 4).length = 2 ∧
    ∀ h' : 1 < (adjust [(['a'], 0, 1), (['b'], 5, 7)] 2 1 4).length,
      ((5 : Int) ≤ 2 →
        (adjust [(['a'], 0, 1), (['b'], 5, 7)] 2 1 4).get ⟨1, h'⟩ = (['b'], 5, 7)) ∧
      ((5 : Int) > 2 →
        (adjust [(['a'], 0, 1), (['b'], 5, 7)] 2 1 4).get ⟨1, h'⟩ = (['b'], 5 + (4 - 1), 7 + (4 - 1))) ∧
      ((adjust [(['a'], 0, 1), (['b'], 5, 7)] 2 1 4).get ⟨1, h'⟩).2.2 -
        ((adjust [(['a'], 0, 1), (['b'], 5, 7)] 2 1 4).get ⟨1, h'⟩).2.1 = 7 - 5 :=
  adjust_invariant [(['a'], 0, 1), (['b'], 5, 7)] 2 1 4 1 (by decide)

/-- Occurrence of `pt` in `text` at position `p` (decidable formulation). -/
def occursAt (text pt : List Char) (p : Nat) : Prop :=
  pt <+: text.drop p ∧ p ≤ text.length

instance (text pt : List Char) (p : Nat) : Decidable (occursAt text pt p) :=
  inferInstanceAs (Decidable (_ ∧ _))

theorem occursAt_iff_parts (text pt : List Char) (p : Nat) :
    occursAt text pt p ↔ ∃ x y, text = x ++ pt ++ y ∧ x.length = p := by
  constructor
  · rintro ⟨⟨y, hy⟩, hle⟩
    refine ⟨text.take p, y, ?_, by simp [List.length_take, Nat.min_eq_left hle]⟩
    conv_lhs => rw [← List.take_append_drop p text]
    rw [← hy, List.append_assoc]
  · rintro ⟨x, y, rfl, rfl⟩
    constructor
    · rw [List.append_assoc, List.drop_left]
      exact ⟨y, rfl⟩
    · simp [List.length_append]

theorem occursAt_le_length (text pt : List Char) (p : Nat) (h : occursAt text pt p) :
    p + pt.length ≤ text.length := by
  rcases (occursAt_iff_parts text pt p).mp h with ⟨x, y, rfl, rfl⟩
  simp [List.length_append]

theorem findAux_some (text pt : List Char) (fuel : Nat) :
    ∀ p m, findAux text pt p fuel = some m →
      p ≤ m ∧ pt <+: text.drop m ∧ ∀ q, p ≤ q → q < m → ¬ pt <+: text.drop q := by
  induction fuel with
  | zero => intro p m h; exact absurd h (by simp [findAux])
  | succ fuel ih =>
      intro p m h
      rw [findAux] at h
      by_cases hp : pt <+: text.drop p
      · rw [if_pos hp] at h
        cases h
        exact ⟨le_refl _, hp, fun q hq1 hq2 => absurd (lt_of_le_of_lt hq1 hq2) (lt_irrefl _)⟩
      · rw [if_neg hp] at h
        obtain ⟨h1, h2, h3⟩ := ih (p + 1) m h
        refine ⟨le_trans (Nat.le_succ p) h1, h2, fun q hq1 hq2 => ?_⟩
        rcases Nat.eq_or_lt_of_le hq1 with rfl | hlt
        · exact hp
        · exact h3 q hlt hq2

theorem findAux_none (text pt : List Char) (fuel : Nat) :
    ∀ p, findAux text pt p fuel = none →
      ∀ q, p ≤ q → q < p + fuel → ¬ pt <+: text.drop q := by
  induction fuel with
  | zero => intro p _ q hq1 hq2; omega
  | succ fuel ih =>
      intro p h q hq1 hq2
      rw [findAux] at h
      by_cases hp : pt <+: text.drop p
      · rw [if_pos hp] at h; cases h
      · rw [if_neg hp] at h
        rcases Nat.eq_or_lt_of_le hq1 with rfl | hlt
        · exact hp
        · exact ih (p + 1) h q hlt (by omega)

theorem strFind_some (text pt : List Char) (m : Nat) (h : strFind text pt 0 = some m) :
    occursAt text pt m ∧ ∀ q, q < m → ¬ occursAt text pt q := by
  obtain ⟨-, h2, h3⟩ := findAux_some text pt (text.length + 1 - 0) 0 m h
  have hm : m ≤ text.length := by
    by_contra hgt
    push_neg at hgt
    have : text.drop m = [] := List.drop_eq_nil_of_le (le_of_lt hgt)
    rw [this] at h2
    have hpt : pt = [] := List.prefix_nil.mp h2
    exact absurd (h3 text.length (Nat.zero_le _) hgt) (by
      intro hno
      exact hno (hpt ▸ List.nil_prefix))
  exact ⟨⟨h2, hm⟩, fun q hq hocc => h3 q (Nat.zero_le q) hq hocc.1⟩

theorem strFind_none (text pt : List Char) (h : strFind text pt 0 = none) :
    ∀ q, ¬ occursAt text pt q := by
  intro q hocc
  exact findAux_none text pt (text.length + 1 - 0) 0 h q (Nat.zero_le q)
    (by have := hocc.2; omega) hocc.1

theorem strFind_eq_some_of (text pt : List Char) (m : Nat)
    (h1 : occursAt text pt m) (h2 : ∀ q, q < m → ¬ occursAt text pt q) :
    strFind text pt 0 = some m := by
  cases hf : strFind text pt 0 with
  | none => exact absurd h1 (strFind_none text pt hf m)
  | some m' =>
      obtain ⟨h1', h2'⟩ := strFind_some text pt m' hf
      congr
      rcases lt_trichotomy m' m with hlt | heq | hgt
      · exact absurd h1' (h2 m' hlt)
      · exact heq
      · exact absurd h1 (h2' m hgt)

theorem strFind_eq_none_of (text pt : List Char) (h : ∀ q, ¬ occursAt text pt q) :
    strFind text pt 0 = none := by
  cases hf : strFind text pt 0 with
  | none => rfl
  | some m => exact absurd (strFind_some text pt m hf).1 (h m)

/-- Splicing over an exact decomposition: replacing the occurrence of `pt`
sitting between `x` and `y` yields `x ++ v ++ y`. -/
theorem replaceAt_parts (x p y v : List Char) :
    replaceAt (x ++ p ++ y) x.length p.length v = x ++ v ++ y := by
  have ht : (x ++ p ++ y).take x.length = x := by
    rw [List.append_assoc]
    exact List.take_left x (p ++ y)
  have hd : (x ++ p ++ y).drop (x.length + p.length) = y := by
    rw [← List.length_append x p]
    exact List.drop_left (x ++ p) y
  unfold replaceAt
  rw [ht, hd]

theorem sliceN_parts (a w b : List Char) :
    sliceN (a ++ w ++ b) a.length (a.length + w.length) = w := by
  have ht : (a ++ w ++ b).take (a.length + w.length) = a ++ w := by
    rw [← List.length_append a w]
    exact List.take_left (a ++ w) b
  unfold sliceN
  rw [ht, List.drop_left]

/-- Abstract view of a partially substituted template: a sequence of literal
segments and placeholder holes.  `itemsText` recovers the concrete string. -/
inductive Item where
  | lit (s : List Char)
  | hole (k : Key)
deriving DecidableEq

def itemText : Item → List Char
  | .lit s => s
  | .hole k => pat k

def itemsText (its : List Item) : List Char := (its.map itemText).flatten

/-- Well-formedness of one item: its literal text or key is brace-free. -/
def itemWF : Item → Prop
  | .lit s => braceFree s
  | .hole k => braceFree k

instance : (it : Item) → Decidable (itemWF it)
  | .lit s => inferInstanceAs (Decidable (braceFree s))
  | .hole k => inferInstanceAs (Decidable (braceFree k))

/-- Well-formed item list: every literal segment and every hole key is
brace-free, so braces occur in the text only as placeholder delimiters. -/
def ItemsWF (its : List Item) : Prop := ∀ it ∈ its, itemWF it

instance (its : List Item) : Decidable (ItemsWF its) := List.decidableBAll _ its

theorem itemsText_nil : itemsText [] = [] := rfl

theorem itemsText_cons (it : Item) (rest : List Item) :
    itemsText (it :: rest) = itemText it ++ itemsText rest := by
  simp [itemsText]

theorem itemsText_append (a b : List Item) :
    itemsText (a ++ b) = itemsText a ++ itemsText b := by
  simp [itemsText]

theorem pat_length (k : Key) : (pat k).length = k.length + 2 := by
  simp [pat]

/-- Uniqueness of the text before the first unescaped `}`: two decompositions
of the same string into a brace-free part followed by `}` agree. -/
theorem delim_eq (k : Key) : ∀ (k' y y' : List Char), '}' ∉ k → '}' ∉ k' →
    k ++ '}' :: y = k' ++ '}' :: y' → k = k' ∧ y = y' := by
  induction k with
  | nil =>
      intro k' y y' _ hk' h
      cases k' with
      | nil =>
          simp only [List.nil_append, List.cons.injEq] at h
          exact ⟨rfl, h.2⟩
      | cons c t =>
          simp only [List.nil_append, List.cons_append, List.cons.injEq] at h
          have : '}' ∈ c :: t := by rw [← h.1]; exact List.mem_cons_self _ _
          exact absurd this hk'
  | cons a t ih =>
      intro k' y y' hk hk' h
      cases k' with
      | nil =>
          simp only [List.cons_append, List.nil_append, List.cons.injEq] at h
          have : '}' ∈ a :: t := by rw [h.1]; exact List.mem_cons_self _ _
          exact absurd this hk
      | cons b t' =>
          simp only [List.cons_append, List.cons.injEq] at h
          have ht : t = t' ∧ y = y' :=
            ih t' y y' (fun hm => hk (List.mem_cons_of_mem a hm))
              (fun hm => hk' (List.mem_cons_of_mem b hm)) h.2
          exact ⟨by rw [h.1, ht.1], ht.2⟩

/-- Splitting an equality of concatenations at a position inside the right
part: if `a ++ b = c ++ d` and `a` is no longer than `c`, then `c = a ++ e`
and `b = e ++ d` for the evident middle part `e`. -/
theorem split_append {a b c d : List Char} (h : a ++ b = c ++ d)
    (hle : a.length ≤ c.length) : ∃ e, c = a ++ e ∧ b = e ++ d := by
  have ha : a = c.take a.length := by
    have h1 : (a ++ b).take a.length = a := List.take_left a b
    have h2 : (c ++ d).take a.length = c.take a.length := by
      rw [List.take_append_eq_append_take, Nat.sub_eq_zero_of_le hle, List.take_zero,
        List.append_nil]
    rw [← h2, ← h, h1]
  refine ⟨c.drop a.length, ?_, ?_⟩
  · conv_lhs => rw [← List.take_append_drop a.length c, ← ha]
  · have hc : c = a ++ c.drop a.length := by
      conv_lhs => rw [← List.take_append_drop a.length c, ← ha]
    rw [hc, List.append_assoc] at h
    exact List.append_cancel_left h

/-- Key alignment lemma: in a well-formed item list, every occurrence of the
placeholder `pat k` (for a brace-free `k`) starts exactly at a hole carrying
key `k`.  New occurrences can therefore never be created across segment
boundaries. -/
theorem occ_align (k : Key) (hk : braceFree k) :
    ∀ its : List Item, ItemsWF its → ∀ x y, itemsText its = x ++ pat k ++ y →
      ∃ pre post, its = pre ++ Item.hole k :: post ∧ (itemsText pre).length = x.length := by
  intro its
  induction its with
  | nil =>
      intro _ x y h
      rw [itemsText_nil] at h
      have h2 : x ++ pat k ++ y = [] := h.symm
      rw [List.append_assoc] at h2
      rcases List.append_eq_nil.mp h2 with ⟨-, h4⟩
      rcases List.append_eq_nil.mp h4 with ⟨h5, -⟩
      exact absurd h5 (by simp [pat])
  | cons it rest ih =>
      intro hwf x y h
      rw [itemsText_cons] at h
      have hwf_it : itemWF it := hwf it (List.mem_cons_self _ _)
      have hwf_rest : ItemsWF rest := fun i hi => hwf i (List.mem_cons_of_mem _ hi)
      rcases le_or_lt (itemText it).length x.length with hle | hlt
      · -- the occurrence lies wholly inside the remaining items
        rw [List.append_assoc] at h
        obtain ⟨e, hx, hrest⟩ := split_append h hle
        rw [← List.append_assoc] at hrest
        obtain ⟨pre', post', hits, hlen⟩ := ih hwf_rest e y hrest
        refine ⟨it :: pre', post', by simp [hits], ?_⟩
        rw [itemsText_cons, List.length_append, hlen, hx, List.length_append]
      · -- the occurrence starts inside the first item
        rw [List.append_assoc] at h
        obtain ⟨e, hit, hrest⟩ := split_append h.symm (le_of_lt hlt)
        -- hit : itemText it = x ++ e, hrest : pat k ++ y = e ++ itemsText rest
        have he : e ≠ [] := by
          intro he0
          rw [he0, List.append_nil] at hit
          rw [hit] at hlt
          exact absurd hlt (lt_irrefl _)
        cases e with
        | nil => exact absurd rfl he
        | cons c0 e' =>
            simp only [pat, List.cons_append] at hrest
            -- hrest : '{' :: ((k ++ ['}']) ++ y) = c0 :: (e' ++ itemsText rest)
            injection hrest with hc0 htail0
            cases it with
            | lit s =>
                exfalso
                have hs : s = x ++ c0 :: e' := hit
                have : '{' ∈ s := by
                  rw [hs, ← hc0]
                  exact List.mem_append_right x (List.mem_cons_self _ _)
                exact absurd this hwf_it.1
            | hole k' =>
                have hwf_k' : braceFree k' := hwf_it
                cases x with
                | nil =>
                    -- the occurrence starts exactly at this hole
                    have hpk : '{' :: (k' ++ ['}']) = c0 :: e' := by
                      have h0 := hit
                      simp only [itemText, pat, List.nil_append] at h0
                      exact h0
                    injection hpk with hpk1 he'
                    have htail : k ++ '}' :: y = k' ++ '}' :: itemsText rest := by
                      have h1 := htail0
                      rw [← he'] at h1
                      simpa [List.append_assoc] using h1
                    obtain ⟨hkk, -⟩ := delim_eq k k' y (itemsText rest) hk.2 hwf_k'.2 htail
                    exact ⟨[], rest, by simp [hkk], rfl⟩
                | cons x0 x'' =>
                    -- a second '{' would have to occur strictly inside the hole's text
                    exfalso
                    have hpk : '{' :: (k' ++ ['}']) = x0 :: (x'' ++ c0 :: e') := by
                      have h0 := hit
                      simp only [itemText, pat, List.cons_append] at h0
                      exact h0
                    injection hpk with hpk1 hk'e
                    have hmem : '{' ∈ k' ++ ['}'] := by
                      rw [hk'e, ← hc0]
                      exact List.mem_append_right x'' (List.mem_cons_self _ _)
                    rcases List.mem_append.mp hmem with hin | hin
                    · exact absurd hin hwf_k'.1
                    · rw [List.mem_singleton] at hin
                      exact absurd hin (by decide)

/-- Offset of item `j` in the rendered text of `its`. -/
def posOf (its : List Item) (j : Nat) : Nat := (itemsText (its.take j)).length

/-- Length of the text contributed by item `j` of `its`. -/
def lenAt (its : List Item) (j : Nat) : Nat :=
  match its[j]? with
  | some it => (itemText it).length
  | none => 0

theorem occ_at_decomp (pre post : List Item) (k : Key) :
    occursAt (itemsText (pre ++ Item.hole k :: post)) (pat k) (itemsText pre).length := by
  rw [occursAt_iff_parts]
  refine ⟨itemsText pre, itemsText post, ?_, rfl⟩
  rw [itemsText_append, itemsText_cons]
  simp [itemText, List.append_assoc]

theorem occ_decomp (its : List Item) (k : Key) (hk : braceFree k) (hwf : ItemsWF its) (q : Nat)
    (h : occursAt (itemsText its) (pat k) q) :
    ∃ pre post, its = pre ++ Item.hole k :: post ∧ (itemsText pre).length = q := by
  rcases (occursAt_iff_parts _ _ _).mp h with ⟨x, y, hxy, hx⟩
  obtain ⟨pre, post, h1, h2⟩ := occ_align k hk its hwf x y hxy
  exact ⟨pre, post, h1, by rw [h2, hx]⟩

/-- Prefixes of the same list ordered by length have ordered text lengths. -/
theorem itemsText_take_mono (its : List Item) {i j : Nat} (hij : i ≤ j) :
    (itemsText (its.take i)).length ≤ (itemsText (its.take j)).length := by
  have h1 : its.take i = (its.take j).take i := by
    rw [List.take_take, Nat.min_eq_left hij]
  rw [h1]
  have h2 : its.take j = (its.take j).take i ++ (its.take j).drop i :=
    (List.take_append_drop i (its.take j)).symm
  calc (itemsText ((its.take j).take i)).length
      ≤ (itemsText ((its.take j).take i)).length + (itemsText ((its.take j).drop i)).length :=
        Nat.le_add_right _ _
    _ = (itemsText (its.take j)).length := by
        rw [← List.length_append, ← itemsText_append, ← h2]

/-- S1: in a well-formed item list whose first hole for `k` follows `pre`,
the Python-side `find` locates the placeholder exactly at that hole. -/
theorem strFind_first_hole (pre post : List Item) (k : Key)
    (hwf : ItemsWF (pre ++ Item.hole k :: post)) (hpre : Item.hole k ∉ pre) :
    strFind (itemsText (pre ++ Item.hole k :: post)) (pat k) 0 = some (itemsText pre).length := by
  have hk : braceFree k := by
    have := hwf (Item.hole k) (by simp)
    exact this
  refine strFind_eq_some_of _ _ _ (occ_at_decomp pre post k) ?_
  intro q hq hocc
  obtain ⟨pre', post', h1, h2⟩ := occ_decomp _ k hk hwf q hocc
  by_cases hlen : pre.length ≤ pre'.length
  · -- then pre' extends pre, so its text is at least as long
    have hp : pre = (pre ++ Item.hole k :: post).take pre.length := by
      rw [List.take_left]
    have hp' : pre' = (pre ++ Item.hole k :: post).take pre'.length := by
      rw [h1, List.take_left]
    have := itemsText_take_mono (pre ++ Item.hole k :: post) hlen
    rw [← hp, ← hp'] at this
    rw [h2] at this
    omega
  · -- then the hole at pre'.length lies inside pre
    push_neg at hlen
    have hget : (pre ++ Item.hole k :: post)[pre'.length]? = some (Item.hole k) := by
      rw [h1]
      rw [List.getElem?_append_right (le_refl _)]
      simp
    rw [List.getElem?_append_left hlen] at hget
    have : Item.hole k ∈ pre := by
      have := List.getElem?_mem hget
      exact this
    exact absurd this hpre

/-- S2: if a well-formed item list has no hole for the brace-free key `k`,
the placeholder `pat k` does not occur in its text at all. -/
theorem strFind_no_hole (its : List Item) (k : Key) (hk : braceFree k)
    (hwf : ItemsWF its) (h : Item.hole k ∉ its) :
    strFind (itemsText its) (pat k) 0 = none := by
  refine strFind_eq_none_of _ _ (fun q hocc => ?_)
  obtain ⟨pre, post, h1, -⟩ := occ_decomp its k hk hwf q hocc
  exact h (by rw [h1]; exact List.mem_append_right pre (List.mem_cons_self _ _))

/-- S3: splicing the value into the hole's position turns the hole into a
literal segment. -/
theorem replaceAt_hole (pre post : List Item) (k : Key) (v : List Char) :
    replaceAt (itemsText (pre ++ Item.hole k :: post)) (itemsText pre).length (pat k).length v =
      itemsText (pre ++ Item.lit v :: post) := by
  have h1 : itemsText (pre ++ Item.hole k :: post) = itemsText pre ++ pat k ++ itemsText post := by
    rw [itemsText_append, itemsText_cons]
    simp [itemText, List.append_assoc]
  have h2 : itemsText (pre ++ Item.lit v :: post) = itemsText pre ++ v ++ itemsText post := by
    rw [itemsText_append, itemsText_cons]
    simp [itemText, List.append_assoc]
  rw [h1, h2, replaceAt_parts]

/-- First-occurrence decomposition of a list membership. -/
theorem mem_first_decomp {α : Type} [DecidableEq α] (a : α) :
    ∀ l : List α, a ∈ l → ∃ pre post, l = pre ++ a :: post ∧ a ∉ pre := by
  intro l
  induction l with
  | nil => intro h; exact absurd h (List.not_mem_nil a)
  | cons b t ih =>
      intro h
      by_cases hb : b = a
      · exact ⟨[], t, by rw [hb]; rfl, List.not_mem_nil a⟩
      · have ht : a ∈ t := by
          rcases List.mem_cons.mp h with h1 | h1
          · exact absurd h1.symm hb
          · exact h1
        obtain ⟨pre, post, h1, h2⟩ := ih ht
        refine ⟨b :: pre, post, by rw [h1]; rfl, ?_⟩
        intro hmem
        rcases List.mem_cons.mp hmem with h3 | h3
        · exact hb h3.symm
        · exact h2 h3

/-- Anchor: a recorded region described abstractly by its key and the index
of the item that carries its substituted content. -/
abbrev Anchor := Key × Nat

/-- Concretisation of anchors into the `(key, [start, end])` regions that
`Interface.render` records, in the coordinates of the current text. -/
def concrR (its : List Item) (A : List Anchor) : List Region :=
  A.map (fun a => (a.1, (posOf its a.2 : Int), (posOf its a.2 : Int) + (lenAt its a.2 : Int)))

/-- Validity of anchors: each one points at a literal item holding exactly
the content that the mapping `F` assigns to its key. -/
def AnchorsOK (F : Key → Option (List Char)) (its : List Item) (A : List Anchor) : Prop :=
  ∀ a ∈ A, ∃ w, its[a.2]? = some (Item.lit w) ∧ F a.1 = some w

/-- Substituting one key abstractly: every hole for `k` becomes a literal. -/
def subOne (k : Key) (v : List Char) (its : List Item) : List Item :=
  its.map (fun it => if it = Item.hole k then Item.lit v else it)

/-- Abstract effect of processing the whole content mapping in order. -/
def applyL : List (Key × List Char) → List Item → List Item
  | [], its => its
  | (k, v) :: rest, its => applyL rest (subOne k v its)

/-- Index of the first hole for `k`, if any. -/
def holeIdx : List Item → Key → Option Nat
  | [], _ => none
  | it :: rest, k => if it = Item.hole k then some 0 else (holeIdx rest k).map (· + 1)

/-- Anchors created by processing the mapping `L` on the item list `its`:
one per key of `L` that has a hole, at that hole's index. -/
def newAnchors (L : List (Key × List Char)) (its : List Item) : List Anchor :=
  L.filterMap (fun kv => (holeIdx its kv.1).map (fun j => (kv.1, j)))

/-- Keys of the holes of an item list, in order. -/
def holeKeys : List Item → List Key
  | [] => []
  | Item.hole k :: rest => k :: holeKeys rest
  | Item.lit _ :: rest => holeKeys rest

/-- Single-occurrence template: all placeholder keys are pairwise distinct. -/
def HolesNodup (its : List Item) : Prop := (holeKeys its).Nodup

instance (its : List Item) : Decidable (HolesNodup its) :=
  inferInstanceAs (Decidable (List.Nodup _))

theorem holeKeys_append (a b : List Item) :
    holeKeys (a ++ b) = holeKeys a ++ holeKeys b := by
  induction a with
  | nil => rfl
  | cons it rest ih => cases it <;> simp [holeKeys, ih]

theorem hole_mem_iff (its : List Item) (k : Key) :
    Item.hole k ∈ its ↔ k ∈ holeKeys its := by
  induction its with
  | nil => simp [holeKeys]
  | cons it rest ih =>
      cases it with
      | lit s => simp [holeKeys, ih]
      | hole k' => simp [holeKeys, List.mem_cons, ih]

theorem subOne_no_hole (k : Key) (v : List Char) (l : List Item) (h : Item.hole k ∉ l) :
    subOne k v l = l := by
  induction l with
  | nil => rfl
  | cons it rest ih =>
      have h1 : it ≠ Item.hole k := fun he =>
        h (by rw [← he]; exact List.mem_cons_self it rest)
      have h2 : Item.hole k ∉ rest := fun hm => h (List.mem_cons_of_mem _ hm)
      show (if it = Item.hole k then Item.lit v else it) :: subOne k v rest = it :: rest
      rw [if_neg h1, ih h2]

theorem subOne_decomp (k : Key) (v : List Char) (pre post : List Item)
    (hpre : Item.hole k ∉ pre) (hpost : Item.hole k ∉ post) :
    subOne k v (pre ++ Item.hole k :: post) = pre ++ Item.lit v :: post := by
  unfold subOne
  rw [List.map_append, List.map_cons, if_pos rfl]
  rw [show List.map (fun it => if it = Item.hole k then Item.lit v else it) pre
      = subOne k v pre from rfl]
  rw [show List.map (fun it => if it = Item.hole k then Item.lit v else it) post
      = subOne k v post from rfl]
  rw [subOne_no_hole k v pre hpre, subOne_no_hole k v post hpost]

theorem holeIdx_eq_none (its : List Item) (k : Key) :
    holeIdx its k = none ↔ Item.hole k ∉ its := by
  induction its with
  | nil => simp [holeIdx]
  | cons it rest ih =>
      by_cases hit : it = Item.hole k
      · constructor
        · intro h
          rw [holeIdx, if_pos hit] at h
          cases h
        · intro h
          have hm : Item.hole k ∈ it :: rest := by
            rw [← hit]
            exact List.mem_cons_self it rest
          exact absurd hm h
      · rw [holeIdx, if_neg hit, Option.map_eq_none', ih]
        constructor
        · intro h hm
          rcases List.mem_cons.mp hm with he | he
          · exact hit he.symm
          · exact h he
        · intro h hm
          exact h (List.mem_cons_of_mem _ hm)

theorem holeIdx_first (k : Key) :
    ∀ pre post : List Item, Item.hole k ∉ pre →
      holeIdx (pre ++ Item.hole k :: post) k = some pre.length := by
  intro pre
  induction pre with
  | nil => intro post _; simp [holeIdx]
  | cons it rest ih =>
      intro post hpre
      have h1 : it ≠ Item.hole k := fun he =>
        hpre (by rw [← he]; exact List.mem_cons_self it rest)
      have h2 : Item.hole k ∉ rest := fun hm => hpre (List.mem_cons_of_mem _ hm)
      show (if it = Item.hole k then some 0
        else (holeIdx (rest ++ Item.hole k :: post) k).map (· + 1)) = some (it :: rest).length
      rw [if_neg h1, ih post h2]
      rfl

theorem holeIdx_subOne (k k' : Key) (v : List Char) (its : List Item) (hne : k' ≠ k) :
    holeIdx (subOne k v its) k' = holeIdx its k' := by
  induction its with
  | nil => rfl
  | cons it rest ih =>
      by_cases hit : it = Item.hole k
      · have h1 : Item.lit v ≠ Item.hole k' := by simp
        have h2 : it ≠ Item.hole k' := by
          rw [hit]
          intro he
          injection he with hkk
          exact hne hkk.symm
        show (if (if it = Item.hole k then Item.lit v else it) = Item.hole k' then some 0
            else (holeIdx (subOne k v rest) k').map (· + 1)) =
          (if it = Item.hole k' then some 0 else (holeIdx rest k').map (· + 1))
        rw [if_pos hit, if_neg h1, if_neg h2, ih]
      · show (if (if it = Item.hole k then Item.lit v else it) = Item.hole k' then some 0
            else (holeIdx (subOne k v rest) k').map (· + 1)) =
          (if it = Item.hole k' then some 0 else (holeIdx rest k').map (· + 1))
        rw [if_neg hit, ih]

theorem posOf_take_le (pre rest : List Item) (j : Nat) (hj : j ≤ pre.length) :
    posOf (pre ++ rest) j = posOf pre j := by
  unfold posOf
  rw [List.take_append_eq_append_take, Nat.sub_eq_zero_of_le hj, List.take_zero, List.append_nil]

theorem posOf_at_mid (pre : List Item) (c : Item) (post : List Item) :
    posOf (pre ++ c :: post) pre.length = (itemsText pre).length := by
  unfold posOf
  rw [List.take_left]

theorem posOf_after (pre : List Item) (c : Item) (post : List Item) (t : Nat) :
    posOf (pre ++ c :: post) (pre.length + 1 + t) =
      (itemsText pre).length + ((itemText c).length + (itemsText (post.take t)).length) := by
  unfold posOf
  have h : (pre ++ c :: post).take (pre.length + 1 + t) = pre ++ c :: post.take t := by
    rw [List.take_append_eq_append_take, List.take_of_length_le (by omega)]
    have ht : pre.length + 1 + t - pre.length = t + 1 := by omega
    rw [ht]
    rfl
  rw [h, itemsText_append, itemsText_cons]
  simp [List.length_append]

theorem getElem?_mid (pre : List Item) (c : Item) (post : List Item) :
    (pre ++ c :: post)[pre.length]? = some c := by
  rw [List.getElem?_append_right (le_refl _)]
  simp

theorem lenAt_append_lt (pre rest : List Item) (j : Nat) (hj : j < pre.length) :
    lenAt (pre ++ rest) j = lenAt pre j := by
  unfold lenAt
  rw [List.getElem?_append_left hj]

theorem lenAt_at_mid (pre : List Item) (c : Item) (post : List Item) :
    lenAt (pre ++ c :: post) pre.length = (itemText c).length := by
  unfold lenAt
  rw [getElem?_mid]

theorem lenAt_after (pre : List Item) (c : Item) (post : List Item) (t : Nat) :
    lenAt (pre ++ c :: post) (pre.length + 1 + t) = lenAt post t := by
  unfold lenAt
  rw [List.getElem?_append_right (by omega)]
  have ht : pre.length + 1 + t - pre.length = t + 1 := by omega
  rw [ht, List.getElem?_cons_succ]

/-- When an item list has no hole for `k`, the per-key loop is a no-op. -/
theorem substLoop_absent (fuel : Nat) (hfuel : 1 ≤ fuel) (k : Key) (hk : braceFree k)
    (v : List Char) (R : List Region) (its : List Item) (hwf : ItemsWF its)
    (h : Item.hole k ∉ its) :
    substLoop fuel k v R (itemsText its) = some (R, itemsText its) := by
  cases fuel with
  | zero => omega
  | succ f => simp only [substLoop, strFind_no_hole its k hk hwf h]

/-- When an item list has exactly one hole for `k`, the per-key loop performs
one substitution there and stops. -/
theorem substLoop_present (fuel : Nat) (hfuel : 2 ≤ fuel) (k : Key) (v : List Char)
    (hv : braceFree v) (R : List Region) (pre post : List Item)
    (hwf : ItemsWF (pre ++ Item.hole k :: post))
    (hpre : Item.hole k ∉ pre) (hpost : Item.hole k ∉ post) :
    substLoop fuel k v R (itemsText (pre ++ Item.hole k :: post)) =
      some (adjust R ((itemsText pre).length : Int) ((pat k).length : Int) (v.length : Int)
              ++ [(k, ((itemsText pre).length : Int),
                    ((itemsText pre).length : Int) + (v.length : Int))],
            itemsText (pre ++ Item.lit v :: post)) := by
  obtain ⟨f, rfl⟩ : ∃ f, fuel = f + 2 := ⟨fuel - 2, by omega⟩
  have hk : braceFree k := hwf (Item.hole k) (by simp)
  have hwf1 : ItemsWF (pre ++ Item.lit v :: post) := by
    intro it hit
    rcases List.mem_append.mp hit with h1 | h1
    · exact hwf it (List.mem_append_left _ h1)
    · rcases List.mem_cons.mp h1 with h2 | h2
      · rw [h2]; exact hv
      · exact hwf it (List.mem_append_right _ (List.mem_cons_of_mem _ h2))
  have hno1 : Item.hole k ∉ pre ++ Item.lit v :: post := by
    intro hm
    rcases List.mem_append.mp hm with h1 | h1
    · exact hpre h1
    · rcases List.mem_cons.mp h1 with h2 | h2
      · cases h2
      · exact hpost h2
  have e1 : substLoop (f + 2) k v R (itemsText (pre ++ Item.hole k :: post)) =
      substLoop (f + 1) k v
        (adjust R ((itemsText pre).length : Int) ((pat k).length : Int) (v.length : Int)
          ++ [(k, ((itemsText pre).length : Int),
                ((itemsText pre).length : Int) + (v.length : Int))])
        (replaceAt (itemsText (pre ++ Item.hole k :: post))
          (itemsText pre).length (pat k).length v) := by
    simp only [substLoop, strFind_first_hole pre post k hwf hpre]
  rw [e1, replaceAt_hole]
  exact substLoop_absent (f + 1) (by omega) k hk v _ _ hwf1 hno1

theorem adjust_eq_map (R : List Region) (idx origLen newLen : Int) :
    adjust R idx origLen newLen =
      R.map (fun r => if r.2.1 > idx then
        (r.1, r.2.1 + (newLen - origLen), r.2.2 + (newLen - origLen)) else r) := by
  induction R with
  | nil => rfl
  | cons r rest ih => simp [adjust, ih]

/-- Repositioning lemma: adjusting the concrete regions of valid anchors for
the substitution at the hole after `pre`, then appending the new region,
yields exactly the concretisation in the new text's coordinates. -/
theorem concrR_subst (F : Key → Option (List Char)) (pre post : List Item) (k : Key)
    (v : List Char) (A : List Anchor)
    (hA : AnchorsOK F (pre ++ Item.hole k :: post) A) :
    adjust (concrR (pre ++ Item.hole k :: post) A)
        ((itemsText pre).length : Int) ((pat k).length : Int) (v.length : Int)
      ++ [(k, ((itemsText pre).length : Int), ((itemsText pre).length : Int) + (v.length : Int))] =
    concrR (pre ++ Item.lit v :: post) (A ++ [(k, pre.length)]) := by
  unfold concrR
  rw [adjust_eq_map, List.map_map, List.map_append]
  congr 1
  · apply List.map_congr_left
    intro a ha
    obtain ⟨ak, aj⟩ := a
    obtain ⟨w, hw, -⟩ := hA (ak, aj) ha
    have hne : aj ≠ pre.length := by
      intro he
      rw [he, getElem?_mid] at hw
      cases hw
    simp only [Function.comp]
    rcases lt_or_gt_of_ne hne with hlt | hgt
    · -- anchor strictly before the substituted hole: region untouched
      have hpos : posOf (pre ++ Item.hole k :: post) aj = posOf pre aj :=
        posOf_take_le pre _ aj (le_of_lt hlt)
      have hpos1 : posOf (pre ++ Item.lit v :: post) aj = posOf pre aj :=
        posOf_take_le pre _ aj (le_of_lt hlt)
      have hlen : lenAt (pre ++ Item.hole k :: post) aj = lenAt pre aj :=
        lenAt_append_lt pre _ aj hlt
      have hlen1 : lenAt (pre ++ Item.lit v :: post) aj = lenAt pre aj :=
        lenAt_append_lt pre _ aj hlt
      have hle : posOf pre aj ≤ (itemsText pre).length := by
        have h1 := itemsText_take_mono pre (le_of_lt hlt)
        rwa [List.take_length] at h1
      rw [if_neg (by push_cast [hpos]; omega)]
      rw [hpos, hpos1, hlen, hlen1]
    · -- anchor strictly after the substituted hole: region shifted by the delta
      obtain ⟨t, rfl⟩ : ∃ t, aj = pre.length + 1 + t := ⟨aj - pre.length - 1, by omega⟩
      have hpos := posOf_after pre (Item.hole k) post t
      have hpos1 := posOf_after pre (Item.lit v) post t
      have hlen := lenAt_after pre (Item.hole k) post t
      have hlen1 := lenAt_after pre (Item.lit v) post t
      have hpatlen : (itemText (Item.hole k)).length = k.length + 2 := pat_length k
      have hvlen : (itemText (Item.lit v)).length = v.length := rfl
      rw [if_pos (by rw [hpos, hpatlen]; push_cast; omega)]
      rw [hpos, hpos1, hlen, hlen1, hpatlen, hvlen, pat_length]
      simp only [Prod.mk.injEq]
      refine ⟨trivial, by push_cast; ring, by push_cast; ring⟩
  · simp only [List.map_cons, List.map_nil, posOf_at_mid, lenAt_at_mid]
    rfl

theorem getElem?_mid_ne (pre : List Item) (c c' : Item) (post : List Item) (j : Nat)
    (h : j ≠ pre.length) :
    (pre ++ c :: post)[j]? = (pre ++ c' :: post)[j]? := by
  rcases lt_or_gt_of_ne h with hlt | hgt
  · rw [List.getElem?_append_left hlt, List.getElem?_append_left hlt]
  · obtain ⟨t, rfl⟩ : ∃ t, j = pre.length + 1 + t := ⟨j - pre.length - 1, by omega⟩
    rw [List.getElem?_append_right (by omega), List.getElem?_append_right (by omega)]
    have ht : pre.length + 1 + t - pre.length = t + 1 := by omega
    rw [ht, List.getElem?_cons_succ, List.getElem?_cons_succ]

theorem wf_subst (pre post : List Item) (k : Key) (v : List Char)
    (hwf : ItemsWF (pre ++ Item.hole k :: post)) (hv : braceFree v) :
    ItemsWF (pre ++ Item.lit v :: post) := by
  intro it hit
  rcases List.mem_append.mp hit with h1 | h1
  · exact hwf it (List.mem_append_left _ h1)
  · rcases List.mem_cons.mp h1 with h2 | h2
    · rw [h2]; exact hv
    · exact hwf it (List.mem_append_right _ (List.mem_cons_of_mem _ h2))

theorem nodup_subst (pre post : List Item) (k : Key) (v : List Char)
    (hnd : HolesNodup (pre ++ Item.hole k :: post)) :
    HolesNodup (pre ++ Item.lit v :: post) := by
  unfold HolesNodup at hnd ⊢
  rw [holeKeys_append] at hnd ⊢
  rw [show holeKeys (Item.hole k :: post) = k :: holeKeys post from rfl] at hnd
  rw [show holeKeys (Item.lit v :: post) = holeKeys post from rfl]
  exact List.Nodup.sublist (List.Sublist.append_left (List.sublist_cons_self k _) _) hnd

theorem no_hole_in_post (pre post : List Item) (k : Key)
    (hnd : HolesNodup (pre ++ Item.hole k :: post)) :
    Item.hole k ∉ post := by
  unfold HolesNodup at hnd
  rw [holeKeys_append] at hnd
  rw [show holeKeys (Item.hole k :: post) = k :: holeKeys post from rfl] at hnd
  have h1 : (k :: holeKeys post).Nodup := hnd.of_append_right
  have h2 : k ∉ holeKeys post := (List.nodup_cons.mp h1).1
  intro hm
  exact h2 ((hole_mem_iff post k).mp hm)

theorem newAnchors_congr (rest : List (Key × List Char)) (its its' : List Item)
    (h : ∀ kv ∈ rest, holeIdx its' kv.1 = holeIdx its kv.1) :
    newAnchors rest its' = newAnchors rest its := by
  induction rest with
  | nil => rfl
  | cons kv tl ih =>
      unfold newAnchors
      rw [List.filterMap_cons, List.filterMap_cons]
      rw [h kv (List.mem_cons_self _ _)]
      have htl := ih (fun kv' hm => h kv' (List.mem_cons_of_mem _ hm))
      unfold newAnchors at htl
      rw [htl]

/-- Main simulation: running the outer render loop on a well-formed,
single-occurrence item state with valid anchors substitutes all keys of the
mapping that have holes, and the recorded regions are exactly the
concretisation of the old anchors plus one new anchor per substituted key. -/
theorem stepsSim (F : Key → Option (List Char)) :
    ∀ (L : List (Key × List Char)) (its : List Item) (A : List Anchor) (fuel : Nat),
      2 ≤ fuel → ItemsWF its → HolesNodup its →
      (∀ kv ∈ L, braceFree kv.1) → (∀ kv ∈ L, braceFree kv.2) →
      (∀ kv ∈ L, F kv.1 = some kv.2) → (L.map Prod.fst).Nodup →
      AnchorsOK F its A →
      renderSteps fuel L (concrR its A, itemsText its) =
        some (concrR (applyL L its) (A ++ newAnchors L its), itemsText (applyL L its)) ∧
      AnchorsOK F (applyL L its) (A ++ newAnchors L its) ∧
      ItemsWF (applyL L its) ∧ HolesNodup (applyL L its) := by
  intro L
  induction L with
  | nil =>
      intro its A fuel _ hwf hnd _ _ _ _ hA
      refine ⟨?_, ?_, hwf, hnd⟩
      · show some (concrR its A, itemsText its) = _
        rw [show applyL [] its = its from rfl, show newAnchors [] its = [] from rfl,
          List.append_nil]
      · rw [show applyL [] its = its from rfl, show newAnchors [] its = [] from rfl,
          List.append_nil]
        exact hA
  | cons kv rest ih =>
      obtain ⟨k, v⟩ := kv
      intro its A fuel hfuel hwf hnd hKeys hVals hF hNodupK hA
      have hk : braceFree k := hKeys (k, v) (List.mem_cons_self _ _)
      have hv : braceFree v := hVals (k, v) (List.mem_cons_self _ _)
      have hFk : F k = some v := hF (k, v) (List.mem_cons_self _ _)
      have hKeys' : ∀ kv ∈ rest, braceFree kv.1 :=
        fun kv hm => hKeys kv (List.mem_cons_of_mem _ hm)
      have hVals' : ∀ kv ∈ rest, braceFree kv.2 :=
        fun kv hm => hVals kv (List.mem_cons_of_mem _ hm)
      have hF' : ∀ kv ∈ rest, F kv.1 = some kv.2 :=
        fun kv hm => hF kv (List.mem_cons_of_mem _ hm)
      have hNodupK' : (rest.map Prod.fst).Nodup := by
        rw [List.map_cons, List.nodup_cons] at hNodupK
        exact hNodupK.2
      have hkNotRest : k ∉ rest.map Prod.fst := by
        rw [List.map_cons, List.nodup_cons] at hNodupK
        exact hNodupK.1
      have hIdxStable : ∀ kv' ∈ rest, holeIdx (subOne k v its) kv'.1 = holeIdx its kv'.1 := by
        intro kv' hm
        apply holeIdx_subOne
        intro he
        exact hkNotRest (he ▸ List.mem_map_of_mem Prod.fst hm)
      by_cases hmem : Item.hole k ∈ its
      · -- the key has a hole: one substitution happens
        obtain ⟨pre, post, hits, hpre⟩ := mem_first_decomp (Item.hole k) its hmem
        have hpost : Item.hole k ∉ post := no_hole_in_post pre post k (hits ▸ hnd)
        have hsub : subOne k v its = pre ++ Item.lit v :: post := by
          rw [hits]
          exact subOne_decomp k v pre post hpre hpost
        have hstep : substLoop fuel k v (concrR its A) (itemsText its) =
            some (concrR (pre ++ Item.lit v :: post) (A ++ [(k, pre.length)]),
              itemsText (pre ++ Item.lit v :: post)) := by
          rw [hits]
          rw [substLoop_present fuel hfuel k v hv _ pre post (hits ▸ hwf) hpre hpost]
          rw [concrR_subst F pre post k v A (hits ▸ hA)]
        have hA1 : AnchorsOK F (pre ++ Item.lit v :: post) (A ++ [(k, pre.length)]) := by
          intro a ha
          rcases List.mem_append.mp ha with h1 | h1
          · obtain ⟨w, hw, hFw⟩ := hA a (h1)
            rw [hits] at hw
            have hne : a.2 ≠ pre.length := by
              intro he
              rw [he, getElem?_mid] at hw
              cases hw
            refine ⟨w, ?_, hFw⟩
            rw [← getElem?_mid_ne pre (Item.hole k) (Item.lit v) post a.2 hne]
            exact hw
          · rw [List.mem_singleton] at h1
            rw [h1]
            exact ⟨v, getElem?_mid pre (Item.lit v) post, hFk⟩
        have hwf1 : ItemsWF (pre ++ Item.lit v :: post) := wf_subst pre post k v (hits ▸ hwf) hv
        have hnd1 : HolesNodup (pre ++ Item.lit v :: post) := nodup_subst pre post k v (hits ▸ hnd)
        obtain ⟨ihEq, ihA, ihWF, ihND⟩ := ih (pre ++ Item.lit v :: post) (A ++ [(k, pre.length)])
          fuel hfuel hwf1 hnd1 hKeys' hVals' hF' hNodupK'
          hA1
        have hNA : newAnchors ((k, v) :: rest) its = (k, pre.length) :: newAnchors rest its := by
          unfold newAnchors
          rw [List.filterMap_cons]
          rw [show ((k, v) : Key × List Char).1 = k from rfl]
          rw [hits, holeIdx_first k pre post hpre]
          rfl
        have hNA2 : newAnchors rest (pre ++ Item.lit v :: post) = newAnchors rest its := by
          rw [← hsub]
          exact newAnchors_congr rest its (subOne k v its) hIdxStable
        have happly : applyL ((k, v) :: rest) its = applyL rest (pre ++ Item.lit v :: post) := by
          rw [show applyL ((k, v) :: rest) its = applyL rest (subOne k v its) from rfl, hsub]
        have hassoc : (A ++ [(k, pre.length)]) ++ newAnchors rest its =
            A ++ newAnchors ((k, v) :: rest) its := by
          rw [hNA, List.append_assoc]
          rfl
        refine ⟨?_, ?_, ?_, ?_⟩
        · show (match substLoop fuel k v (concrR its A) (itemsText its) with
            | none => none
            | some st => renderSteps fuel rest st) = _
          rw [hstep]
          show renderSteps fuel rest
              (concrR (pre ++ Item.lit v :: post) (A ++ [(k, pre.length)]),
                itemsText (pre ++ Item.lit v :: post)) = _
          rw [ihEq, hNA2, happly, hassoc]
        · rw [happly, ← hassoc, ← hNA2]
          exact ihA
        · rw [happly]; exact ihWF
        · rw [happly]; exact ihND
      · -- the key has no hole: the per-key loop is a no-op
        have hstep : substLoop fuel k v (concrR its A) (itemsText its) =
            some (concrR its A, itemsText its) :=
          substLoop_absent fuel (by omega) k hk v _ its hwf hmem
        have hsub : subOne k v its = its := subOne_no_hole k v its hmem
        obtain ⟨ihEq, ihA, ihWF, ihND⟩ := ih its A fuel hfuel hwf hnd hKeys' hVals' hF' hNodupK' hA
        have hNA : newAnchors ((k, v) :: rest) its = newAnchors rest its := by
          unfold newAnchors
          rw [List.filterMap_cons]
          rw [show ((k, v) : Key × List Char).1 = k from rfl]
          rw [(holeIdx_eq_none its k).mpr hmem]
          rfl
        have happly : applyL ((k, v) :: rest) its = applyL rest its := by
          rw [show applyL ((k, v) :: rest) its = applyL rest (subOne k v its) from rfl, hsub]
        refine ⟨?_, ?_, ?_, ?_⟩
        · show (match substLoop fuel k v (concrR its A) (itemsText its) with
            | none => none
            | some st => renderSteps fuel rest st) = _
          rw [hstep]
          show renderSteps fuel rest (concrR its A, itemsText its) = _
          rw [ihEq, happly, hNA]
        · rw [happly, hNA]; exact ihA
        · rw [happly]; exact ihWF
        · rw [happly]; exact ihND

theorem vOf_mem (L : List (Key × List Char)) (hnd : (L.map Prod.fst).Nodup) :
    ∀ kv ∈ L, vOf L kv.1 = some kv.2 := by
  induction L with
  | nil => intro kv h; cases h
  | cons hd tl ih =>
      obtain ⟨k0, v0⟩ := hd
      rw [List.map_cons, List.nodup_cons] at hnd
      intro kv hm
      rcases List.mem_cons.mp hm with he | hmem
      · rw [he]
        show (if k0 = k0 then some v0 else vOf tl k0) = some v0
        rw [if_pos rfl]
      · have hne : k0 ≠ kv.1 := by
          intro he0
          have h1 : kv.1 ∈ tl.map Prod.fst := List.mem_map_of_mem Prod.fst hmem
          rw [← he0] at h1
          exact hnd.1 h1
        show (if k0 = kv.1 then some v0 else vOf tl kv.1) = some kv.2
        rw [if_neg hne]
        exact ih hnd.2 kv hmem

/-- Top-level corollary of the simulation: rendering a structured template
succeeds and produces the canonical text and regions. -/
theorem render_structured (its0 : List Item) (L : List (Key × List Char)) (fuel : Nat)
    (hfuel : 2 ≤ fuel) (hwf : ItemsWF its0) (hnd : HolesNodup its0)
    (hKeys : ∀ kv ∈ L, braceFree kv.1) (hVals : ∀ kv ∈ L, braceFree kv.2)
    (hNodupK : (L.map Prod.fst).Nodup) :
    render fuel (itemsText its0) L =
      some (itemsText (applyL L its0), concrR (applyL L its0) (newAnchors L its0)) ∧
    AnchorsOK (vOf L) (applyL L its0) (newAnchors L its0) := by
  obtain ⟨hEq, hA, -, -⟩ := stepsSim (vOf L) L its0 [] fuel hfuel hwf hnd hKeys hVals
    (vOf_mem L hNodupK) hNodupK (fun a ha => absurd ha (List.not_mem_nil a))
  constructor
  · unfold render
    rw [show (([], itemsText its0) : List Region × List Char)
        = (concrR its0 [], itemsText its0) from rfl]
    rw [hEq]
    rw [List.nil_append]
    rfl
  · rw [List.nil_append] at hA
    exact hA

/-- Content extraction: every concrete region of a valid anchor list slices
out exactly the content its key is mapped to. -/
theorem concrR_content (F : Key → Option (List Char)) (its : List Item) (A : List Anchor)
    (hA : AnchorsOK F its A) :
    ∀ r ∈ concrR its A, ∃ v : List Char, F r.1 = some v ∧
      ∃ s : Nat, r.2.1 = (s : Int) ∧ r.2.2 = (s : Int) + (v.length : Int) ∧
        sliceN (itemsText its) s (s + v.length) = v := by
  intro r hr
  rcases List.mem_map.mp hr with ⟨a, ha, rfl⟩
  obtain ⟨w, hw, hF⟩ := hA a ha
  have hlen : lenAt its a.2 = w.length := by
    unfold lenAt
    rw [hw]
    rfl
  have hlt : a.2 < its.length := by
    rcases List.getElem?_eq_some.mp hw with ⟨h, -⟩
    exact h
  have hgetv : its[a.2] = Item.lit w := by
    rcases List.getElem?_eq_some.mp hw with ⟨h, hv⟩
    exact hv
  have hdrop : its.drop a.2 = Item.lit w :: its.drop (a.2 + 1) := by
    rw [List.drop_eq_getElem_cons hlt, hgetv]
  have h1 : itemsText its = itemsText (its.take a.2) ++ w ++ itemsText (its.drop (a.2 + 1)) := by
    conv_lhs => rw [← List.take_append_drop a.2 its, hdrop]
    rw [itemsText_append, itemsText_cons]
    rw [show itemText (Item.lit w) = w from rfl, List.append_assoc]
  refine ⟨w, hF, posOf its a.2, rfl, by rw [hlen], ?_⟩
  rw [h1]
  show sliceN _ (posOf its a.2) (posOf its a.2 + w.length) = w
  rw [show posOf its a.2 = (itemsText (its.take a.2)).length from rfl]
  exact sliceN_parts _ w _

/-- C1 counterexample: with template `{a}{b}` (distinct, single-occurrence
placeholders) and content `a` to `{b}`, `b` to `Z`, render completes
yielding text `ZZ`, and `a`'s recorded region `[0,3)` does not slice out
`a`'s content `{b}` — the claim as stated is false. -/
theorem c1_counterexample :
    render 10 ['{', 'a', '}', '{', 'b', '}'] [(['a'], ['{', 'b', '}']), (['b'], ['Z'])] =
      some (['Z', 'Z'], [(['a'], 0, 3), (['b'], 0, 1), (['b'], 1, 2)]) ∧
    sliceN ['Z', 'Z'] 0 3 ≠ ['{', 'b', '}'] := by
  exact ⟨by decide, by decide⟩

/-- C1 (amended): for every template that is an alternation of brace-free
literal segments and placeholders with pairwise-distinct brace-free
identifiers, and every content mapping with distinct brace-free keys and
brace-free values, render completes and for every key `k` with recorded
region `[s,e)` the final text satisfies `text[s:e] = C[k]`. -/
theorem c1_region_correct (its0 : List Item) (L : List (Key × List Char)) (fuel : Nat)
    (hfuel : 2 ≤ fuel) (hwf : ItemsWF its0) (hnd : HolesNodup its0)
    (hKeys : ∀ kv ∈ L, braceFree kv.1) (hVals : ∀ kv ∈ L, braceFree kv.2)
    (hNodupK : (L.map Prod.fst).Nodup) :
    ∃ text regions, render fuel (itemsText its0) L = some (text, regions) ∧
      ∀ r ∈ regions, ∃ v : List Char, vOf L r.1 = some v ∧
        ∃ s : Nat, r.2.1 = (s : Int) ∧ r.2.2 = (s : Int) + (v.length : Int) ∧
          sliceN text s (s + v.length) = v := by
  obtain ⟨hEq, hA⟩ := render_structured its0 L fuel hfuel hwf hnd hKeys hVals hNodupK
  exact ⟨_, _, hEq, concrR_content (vOf L) _ _ hA⟩

/-- C1 witness: the amended region-correctness theorem applied to the
concrete template `{a}` with content `a` mapped to `X`. -/
theorem c1_witness :
    ∃ text regions,
      render 2 (itemsText [Item.hole ['a']]) [(['a'], ['X'])] = some (text, regions) ∧
      ∀ r ∈ regions, ∃ v : List Char, vOf [(['a'], ['X'])] r.1 = some v ∧
        ∃ s : Nat, r.2.1 = (s : Int) ∧ r.2.2 = (s : Int) + (v.length : Int) ∧
          sliceN text s (s + v.length) = v :=
  c1_region_correct [Item.hole ['a']] [(['a'], ['X'])] 2 (by decide) (by decide) (by decide)
    (by decide) (by decide) (by decide)

theorem posOf_succ (its : List Item) (j : Nat) (hj : j < its.length) :
    posOf its (j + 1) = posOf its j + lenAt its j := by
  have h1 : its.take (j + 1) = its.take j ++ [its[j]] := by
    rw [List.take_succ, List.getElem?_eq_getElem hj]
    rfl
  have h2 : lenAt its j = (itemText its[j]).length := by
    unfold lenAt
    rw [List.getElem?_eq_getElem hj]
  unfold posOf
  rw [h1, itemsText_append, List.length_append, h2, itemsText_cons, itemsText_nil,
    List.append_nil]

/-- Distinct item slots occupy disjoint intervals of the rendered text. -/
theorem item_ranges_disjoint (its : List Item) (j1 j2 : Nat) (h12 : j1 < j2)
    (h1 : j1 < its.length) :
    posOf its j1 + lenAt its j1 ≤ posOf its j2 := by
  rw [← posOf_succ its j1 h1]
  exact itemsText_take_mono its h12

theorem holeIdx_getElem (its : List Item) (k : Key) :
    ∀ j, holeIdx its k = some j → its[j]? = some (Item.hole k) := by
  induction its with
  | nil => intro j h; cases h
  | cons it rest ih =>
      intro j h
      by_cases hit : it = Item.hole k
      · rw [holeIdx, if_pos hit] at h
        injection h with hj
        rw [← hj, hit]
        simp
      · rw [holeIdx, if_neg hit] at h
        rcases Option.map_eq_some'.mp h with ⟨j', hj', he⟩
        rw [← he, List.getElem?_cons_succ]
        exact ih j' hj'

theorem mem_newAnchors (L : List (Key × List Char)) (its : List Item) (a : Anchor)
    (ha : a ∈ newAnchors L its) :
    holeIdx its a.1 = some a.2 ∧ a.1 ∈ L.map Prod.fst := by
  rcases List.mem_filterMap.mp ha with ⟨kv, hkv, hfa⟩
  rcases Option.map_eq_some'.mp hfa with ⟨j, hj, he⟩
  constructor
  · rw [← he]
    exact hj
  · rw [← he]
    exact List.mem_map_of_mem Prod.fst hkv

theorem newAnchors_snd_nodup (L : List (Key × List Char)) (its : List Item)
    (hnd : (L.map Prod.fst).Nodup) : ((newAnchors L its).map Prod.snd).Nodup := by
  induction L with
  | nil => exact List.nodup_nil
  | cons kv rest ih =>
      rw [List.map_cons, List.nodup_cons] at hnd
      show (List.map Prod.snd (List.filterMap _ (kv :: rest))).Nodup
      rw [List.filterMap_cons]
      cases hIdx : holeIdx its kv.1 with
      | none =>
          show ((newAnchors rest its).map Prod.snd).Nodup
          exact ih hnd.2
      | some j =>
          show (List.map Prod.snd ((kv.1, j) :: newAnchors rest its)).Nodup
          rw [List.map_cons, List.nodup_cons]
          refine ⟨?_, ih hnd.2⟩
          intro hmem
          rcases List.mem_map.mp hmem with ⟨a, ha, hsnd⟩
          obtain ⟨hIdx', hkeys⟩ := mem_newAnchors rest its a ha
          have h1 := holeIdx_getElem its a.1 a.2 hIdx'
          have h2 := holeIdx_getElem its kv.1 j hIdx
          rw [hsnd] at h1
          rw [h1] at h2
          injection h2 with h3
          injection h3 with h4
          rw [← h4] at hnd
          exact hnd.1 hkeys

/-- C8 counterexample: with template `{a}{b}` and content `a` to `{b}`,
`b` to `Z`, render completes, and the distinct recorded regions for `a`
(range `[0,3)`) and `b` (range `[0,1)`) overlap — the claim as stated
(covering values with placeholder-shaped text) is false. -/
theorem c8_counterexample :
    render 10 ['{', 'a', '}', '{', 'b', '}'] [(['a'], ['{', 'b', '}']), (['b'], ['Z'])] =
      some (['Z', 'Z'], [(['a'], 0, 3), (['b'], 0, 1), (['b'], 1, 2)]) ∧
    ¬ ((3 : Int) ≤ 0 ∨ (1 : Int) ≤ 0) :=
  ⟨by decide, by decide⟩

/-- C8 (amended): for every render of a structured template (brace-free
literal alternation, distinct brace-free placeholders) with a content
mapping of distinct brace-free keys and brace-free values, the ranges of
all distinct recorded regions are pairwise disjoint. -/
theorem c8_region_disjoint (its0 : List Item) (L : List (Key × List Char)) (fuel : Nat)
    (hfuel : 2 ≤ fuel) (hwf : ItemsWF its0) (hnd : HolesNodup its0)
    (hKeys : ∀ kv ∈ L, braceFree kv.1) (hVals : ∀ kv ∈ L, braceFree kv.2)
    (hNodupK : (L.map Prod.fst).Nodup) :
    ∃ text regions, render fuel (itemsText its0) L = some (text, regions) ∧
      ∀ i1 i2 : Nat, ∀ h1 : i1 < regions.length, ∀ h2 : i2 < regions.length, i1 ≠ i2 →
        (regions.get ⟨i1, h1⟩).2.2 ≤ (regions.get ⟨i2, h2⟩).2.1 ∨
        (regions.get ⟨i2, h2⟩).2.2 ≤ (regions.get ⟨i1, h1⟩).2.1 := by
  obtain ⟨hEq, hA⟩ := render_structured its0 L fuel hfuel hwf hnd hKeys hVals hNodupK
  refine ⟨_, _, hEq, ?_⟩
  intro i1 i2 h1 h2 hne
  set its := applyL L its0 with hits
  set NA := newAnchors L its0 with hNA
  have hlen : (concrR its NA).length = NA.length := List.length_map _ _
  have hg1 : (concrR its NA).get ⟨i1, h1⟩ =
      (fun a => (a.1, (posOf its a.2 : Int), (posOf its a.2 : Int) + (lenAt its a.2 : Int)))
        (NA.get ⟨i1, by rw [← hlen]; exact h1⟩) := List.get_map _
  have hg2 : (concrR its NA).get ⟨i2, h2⟩ =
      (fun a => (a.1, (posOf its a.2 : Int), (posOf its a.2 : Int) + (lenAt its a.2 : Int)))
        (NA.get ⟨i2, by rw [← hlen]; exact h2⟩) := List.get_map _
  set a1 := NA.get ⟨i1, by rw [← hlen]; exact h1⟩ with ha1
  set a2 := NA.get ⟨i2, by rw [← hlen]; exact h2⟩ with ha2
  have hsnne : a1.2 ≠ a2.2 := by
    intro hsame
    apply hne
    have hmap := newAnchors_snd_nodup L its0 hNodupK
    have hinj := List.Nodup.get_inj_iff hmap (i := ⟨i1, by
      rw [List.length_map, ← hlen]; exact h1⟩) (j := ⟨i2, by
      rw [List.length_map, ← hlen]; exact h2⟩)
    have hget1 : (NA.map Prod.snd).get ⟨i1, by rw [List.length_map, ← hlen]; exact h1⟩ = a1.2 :=
      List.get_map _
    have hget2 : (NA.map Prod.snd).get ⟨i2, by rw [List.length_map, ← hlen]; exact h2⟩ = a2.2 :=
      List.get_map _
    have := hinj.mp (by rw [hget1, hget2]; exact hsame)
    exact congrArg Fin.val this
  have hltlen : ∀ i : Nat, ∀ hi : i < NA.length, (NA.get ⟨i, hi⟩).2 < its.length := by
    intro i hi
    obtain ⟨w, hw, -⟩ := hA (NA.get ⟨i, hi⟩) (List.get_mem NA i hi)
    rcases List.getElem?_eq_some.mp hw with ⟨hlt, -⟩
    exact hlt
  have key : ∀ b1 b2 : Anchor, b1.2 < b2.2 → b1.2 < its.length →
      ((b1.1, (posOf its b1.2 : Int), (posOf its b1.2 : Int) + (lenAt its b1.2 : Int)) : Region).2.2
        ≤ ((b2.1, (posOf its b2.2 : Int), (posOf its b2.2 : Int) + (lenAt its b2.2 : Int)) : Region).2.1 := by
    intro b1 b2 hb hb1
    have := item_ranges_disjoint its b1.2 b2.2 hb hb1
    show (posOf its b1.2 : Int) + (lenAt its b1.2 : Int) ≤ (posOf its b2.2 : Int)
    omega
  rw [hg1, hg2]
  rcases lt_or_gt_of_ne hsnne with hlt | hgt
  · left
    exact key a1 a2 hlt (hltlen i1 _)
  · right
    exact key a2 a1 hgt (hltlen i2 _)

/-- C8 witness: the amended disjointness theorem applied to the template
`{a}{b}` with content `a` mapped to `1` and `b` mapped to `22`. -/
theorem c8_witness :
    ∃ text regions,
      render 2 (itemsText [Item.hole ['a'], Item.hole ['b']])
          [(['a'], ['1']), (['b'], ['2', '2'])] = some (text, regions) ∧
      ∀ i1 i2 : Nat, ∀ h1 : i1 < regions.length, ∀ h2 : i2 < regions.length, i1 ≠ i2 →
        (regions.get ⟨i1, h1⟩).2.2 ≤ (regions.get ⟨i2, h2⟩).2.1 ∨
        (regions.get ⟨i2, h2⟩).2.2 ≤ (regions.get ⟨i1, h1⟩).2.1 :=
  c8_region_disjoint [Item.hole ['a'], Item.hole ['b']] [(['a'], ['1']), (['b'], ['2', '2'])] 2
    (by decide) (by decide) (by decide) (by decide) (by decide) (by decide)

/-- Order-free description of the fully substituted item list: each hole is
replaced by whatever the mapping assigns to its key. -/
def applyAll (L : List (Key × List Char)) (its : List Item) : List Item :=
  its.map (fun it => match it with
    | Item.lit s => Item.lit s
    | Item.hole k =>
        match vOf L k with
        | some v => Item.lit v
        | none => Item.hole k)

theorem applyL_eq_applyAll (L : List (Key × List Char)) :
    ∀ its : List Item, applyL L its = applyAll L its := by
  induction L with
  | nil =>
      intro its
      show its = _
      unfold applyAll
      rw [show vOf [] = fun _ => (none : Option (List Char)) from rfl]
      conv_lhs => rw [← List.map_id its]
      apply List.map_congr_left
      intro it _
      cases it <;> rfl
  | cons kv rest ih =>
      obtain ⟨k, v⟩ := kv
      intro its
      show applyL rest (subOne k v its) = _
      rw [ih (subOne k v its)]
      unfold applyAll subOne
      rw [List.map_map]
      apply List.map_congr_left
      intro it _
      cases it with
      | lit s =>
          have h1 : (Item.lit s ≠ Item.hole k) := by simp
          simp only [Function.comp]
          rw [if_neg h1]
      | hole k' =>
          simp only [Function.comp]
          by_cases hkk : k' = k
          · rw [hkk, if_pos rfl]
            show Item.lit v = _
            rw [show vOf ((k, v) :: rest) k = if k = k then some v else vOf rest k from rfl,
              if_pos rfl]
          · have h1 : (Item.hole k' ≠ Item.hole k) := by
              intro he
              injection he with h2
              exact hkk h2
            rw [if_neg h1]
            show _ = (match vOf ((k, v) :: rest) k' with
              | some v => Item.lit v
              | none => Item.hole k')
            rw [show vOf ((k, v) :: rest) k' = if k = k' then some v else vOf rest k' from rfl,
              if_neg (fun he => hkk he.symm)]

theorem vOf_perm (L L' : List (Key × List Char)) (hp : L.Perm L')
    (hnd : (L.map Prod.fst).Nodup) : ∀ k, vOf L k = vOf L' k := by
  induction hp with
  | nil => intro k; rfl
  | cons kv tl ihp =>
      obtain ⟨k0, v0⟩ := kv
      rw [List.map_cons, List.nodup_cons] at hnd
      intro k
      show (if k0 = k then some v0 else vOf _ k) = (if k0 = k then some v0 else vOf _ k)
      by_cases h : k0 = k
      · rw [if_pos h, if_pos h]
      · rw [if_neg h, if_neg h]
        exact ihp hnd.2 k
  | swap a b tl =>
      obtain ⟨ka, va⟩ := a
      obtain ⟨kb, vb⟩ := b
      rw [List.map_cons, List.map_cons, List.nodup_cons] at hnd
      have hab : kb ≠ ka := by
        intro he
        exact hnd.1 (by rw [he]; exact List.mem_cons_self _ _)
      intro k
      show (if kb = k then some vb else if ka = k then some va else vOf tl k)
        = (if ka = k then some va else if kb = k then some vb else vOf tl k)
      by_cases h1 : kb = k
      · rw [if_pos h1]
        have h2 : ka ≠ k := by
          intro he
          exact hab (h1.trans he.symm)
        rw [if_neg h2, if_pos h1]
      · rw [if_neg h1]
        by_cases h2 : ka = k
        · rw [if_pos h2, if_pos h2]
        · rw [if_neg h2, if_neg h2, if_neg h1]
  | trans h1 h2 ih1 ih2 =>
      intro k
      rw [ih1 hnd k]
      have hnd2 : (List.map Prod.fst _).Nodup := ((h1.map Prod.fst).nodup_iff).mp hnd
      rw [ih2 hnd2 k]

/-- C7 counterexample: rendering `{a}` with the mapping `a` to `{b}`,
`b` to `Z` in the two iteration orders yields different final texts (and
different region sets), so order independence fails in general. -/
theorem c7_counterexample :
    render 10 ['{', 'a', '}'] [(['a'], ['{', 'b', '}']), (['b'], ['Z'])] =
      some (['Z'], [(['a'], 0, 3), (['b'], 0, 1)]) ∧
    render 10 ['{', 'a', '}'] [(['b'], ['Z']), (['a'], ['{', 'b', '}'])] =
      some (['{', 'b', '}'], [(['a'], 0, 3)]) ∧
    (['Z'] : List Char) ≠ ['{', 'b', '}'] :=
  ⟨by decide, by decide, by decide⟩

/-- C7 (amended): for structured templates (brace-free literal alternations
with distinct brace-free placeholders) and content mappings with distinct
brace-free keys and brace-free values, rendering under any two iteration
orders of the same mapping yields the identical final text and region lists
that are permutations of each other (hence identical region sets). -/
theorem c7_order_indep (its0 : List Item) (L L' : List (Key × List Char)) (fuel : Nat)
    (hp : L.Perm L') (hfuel : 2 ≤ fuel) (hwf : ItemsWF its0) (hnd : HolesNodup its0)
    (hKeys : ∀ kv ∈ L, braceFree kv.1) (hVals : ∀ kv ∈ L, braceFree kv.2)
    (hNodupK : (L.map Prod.fst).Nodup) :
    ∃ text regions regions',
      render fuel (itemsText its0) L = some (text, regions) ∧
      render fuel (itemsText its0) L' = some (text, regions') ∧
      regions.Perm regions' := by
  have hKeys' : ∀ kv ∈ L', braceFree kv.1 := fun kv hm => hKeys kv (hp.mem_iff.mpr hm)
  have hVals' : ∀ kv ∈ L', braceFree kv.2 := fun kv hm => hVals kv (hp.mem_iff.mpr hm)
  have hNodupK' : (L'.map Prod.fst).Nodup := ((hp.map Prod.fst).nodup_iff).mp hNodupK
  obtain ⟨hEq, -⟩ := render_structured its0 L fuel hfuel hwf hnd hKeys hVals hNodupK
  obtain ⟨hEq', -⟩ := render_structured its0 L' fuel hfuel hwf hnd hKeys' hVals' hNodupK'
  have happly : applyL L its0 = applyL L' its0 := by
    rw [applyL_eq_applyAll, applyL_eq_applyAll]
    unfold applyAll
    apply List.map_congr_left
    intro it _
    cases it with
    | lit s => rfl
    | hole k =>
        show (match vOf L k with
          | some v => Item.lit v
          | none => Item.hole k) =
          (match vOf L' k with
          | some v => Item.lit v
          | none => Item.hole k)
        rw [vOf_perm L L' hp hNodupK k]
  have hanch : (newAnchors L its0).Perm (newAnchors L' its0) := hp.filterMap _
  refine ⟨itemsText (applyL L its0), concrR (applyL L its0) (newAnchors L its0),
    concrR (applyL L' its0) (newAnchors L' its0), hEq, by rw [hEq', happly], ?_⟩
  rw [happly]
  unfold concrR
  exact hanch.map _

/-- C7 witness: the order-independence theorem applied to the template
`{a}{b}` with contents `a` mapped to `1`, `b` mapped to `22`, in the two
iteration orders. -/
theorem c7_witness :
    ∃ text regions regions',
      render 2 (itemsText [Item.hole ['a'], Item.hole ['b']])
          [(['a'], ['1']), (['b'], ['2', '2'])] = some (text, regions) ∧
      render 2 (itemsText [Item.hole ['a'], Item.hole ['b']])
          [(['b'], ['2', '2']), (['a'], ['1'])] = some (text, regions') ∧
      regions.Perm regions' :=
  c7_order_indep [Item.hole ['a'], Item.hole ['b']]
    [(['a'], ['1']), (['b'], ['2', '2'])] [(['b'], ['2', '2']), (['a'], ['1'])] 2
    (List.Perm.swap _ _ _) (by decide) (by decide) (by decide) (by decide) (by decide) (by decide)

/-- Generic one-substitution run of the per-key loop, driven by explicit
find results. -/
theorem substLoop_once (fuel : Nat) (hfuel : 2 ≤ fuel) (k : Key) (v : List Char)
    (R : List Region) (text : List Char) (m : Nat)
    (hfind : strFind text (pat k) 0 = some m)
    (hafter : strFind (replaceAt text m (pat k).length v) (pat k) 0 = none) :
    substLoop fuel k v R text =
      some (adjust R (m : Int) ((pat k).length : Int) (v.length : Int)
          ++ [(k, (m : Int), (m : Int) + (v.length : Int))],
        replaceAt text m (pat k).length v) := by
  obtain ⟨f, rfl⟩ : ∃ f, fuel = f + 2 := ⟨fuel - 2, by omega⟩
  have e1 : substLoop (f + 2) k v R text =
      substLoop (f + 1) k v
        (adjust R (m : Int) ((pat k).length : Int) (v.length : Int)
          ++ [(k, (m : Int), (m : Int) + (v.length : Int))])
        (replaceAt text m (pat k).length v) := by
    show (match strFind text (pat k) 0 with
      | none => some (R, text)
      | some m => substLoop (f + 1) k v
          (adjust R (m : Int) ((pat k).length : Int) (v.length : Int)
            ++ [(k, (m : Int), (m : Int) + (v.length : Int))])
          (replaceAt text m (pat k).length v)) = _
    rw [hfind]
  rw [e1]
  show (match strFind (replaceAt text m (pat k).length v) (pat k) 0 with
    | none => some (_, replaceAt text m (pat k).length v)
    | some m' => _) = _
  rw [hafter]

/-- When a character of the pattern does not occur in the text at all, the
pattern cannot occur either. -/
theorem strFind_none_of_char (text pt : List Char) (c : Char) (hc : c ∈ pt)
    (hnc : c ∉ text) : strFind text pt 0 = none := by
  apply strFind_eq_none_of
  intro q hocc
  rcases (occursAt_iff_parts _ _ _).mp hocc with ⟨x, y, he, -⟩
  apply hnc
  rw [he]
  exact List.mem_append_left _ (List.mem_append_right _ hc)

theorem strFind_pat_self (k : Key) (hk : braceFree k) :
    strFind (pat k) (pat k) 0 = some 0 := by
  have hwf : ItemsWF ([] ++ Item.hole k :: []) := by
    intro it hit
    rcases List.mem_singleton.mp hit with rfl
    exact hk
  have h := strFind_first_hole [] [] k hwf (List.not_mem_nil _)
  simpa [itemsText, itemText] using h

theorem strFind_pat_other (k k' : Key) (hk : braceFree k) (hk' : braceFree k')
    (hne : k ≠ k') : strFind (pat k') (pat k) 0 = none := by
  have hwf : ItemsWF [Item.hole k'] := by
    intro it hit
    rcases List.mem_singleton.mp hit with rfl
    exact hk'
  have hno : Item.hole k ∉ ([Item.hole k'] : List Item) := by
    intro hm
    have he := List.mem_singleton.mp hm
    injection he with h2
    exact hne h2
  have h := strFind_no_hole [Item.hole k'] k hk hwf hno
  simpa [itemsText, itemText] using h

theorem replaceAt_whole (text v : List Char) :
    replaceAt text 0 text.length v = v := by
  simp [replaceAt, List.drop_length]

/-- C3 counterexample: rendering `{a}` with content `a` to `{b}` and
`b` to `X` yields final text `X` — the `{b}` inserted by `a`'s substitution
is itself substituted when `b` is processed, contradicting the claim that
inserted content is never re-scanned. -/
theorem c3_counterexample :
    render 10 ['{', 'a', '}'] [(['a'], ['{', 'b', '}']), (['b'], ['X'])] =
      some (['X'], [(['a'], 0, 3), (['b'], 0, 1)]) ∧
    (['X'] : List Char) ≠ ['{', 'b', '}'] :=
  ⟨by decide, by decide⟩

/-- C3 (amended): each key's loop performs one substitution pass in mapping
order, but the search for later keys runs over the mutated text: a value
equal to a later key's placeholder is itself replaced by that later key's
content.  For all distinct brace-free keys `k1, k2` and brace-free `v2`,
rendering `{k1}` with `k1` mapped to the literal text `{k2}` and `k2` mapped
to `v2` completes with final text `v2`, and a region for `k2` is recorded
inside the area substituted for `k1`. -/
theorem c3_rescan (k1 k2 : Key) (v2 : List Char) (hk1 : braceFree k1) (hk2 : braceFree k2)
    (hv2 : braceFree v2) (hne : k1 ≠ k2) (fuel : Nat) (hfuel : 2 ≤ fuel) :
    ∃ regions, render fuel (pat k1) [(k1, pat k2), (k2, v2)] = some (v2, regions) ∧
      (k2, (0 : Int), (v2.length : Int)) ∈ regions := by
  have hrep1 : replaceAt (pat k1) 0 (pat k1).length (pat k2) = pat k2 :=
    replaceAt_whole (pat k1) (pat k2)
  have hs1 : substLoop fuel k1 (pat k2) [] (pat k1) =
      some ([(k1, (0 : Int), (0 : Int) + ((pat k2).length : Int))], pat k2) := by
    have h := substLoop_once fuel hfuel k1 (pat k2) [] (pat k1) 0
      (strFind_pat_self k1 hk1)
      (by rw [hrep1]; exact strFind_pat_other k1 k2 hk1 hk2 hne)
    rw [hrep1] at h
    rw [h]
    rfl
  have hrep2 : replaceAt (pat k2) 0 (pat k2).length v2 = v2 :=
    replaceAt_whole (pat k2) v2
  have hs2 : substLoop fuel k2 v2 [(k1, (0 : Int), (0 : Int) + ((pat k2).length : Int))] (pat k2) =
      some ([(k1, (0 : Int), (0 : Int) + ((pat k2).length : Int)),
          (k2, (0 : Int), (0 : Int) + (v2.length : Int))], v2) := by
    have h := substLoop_once fuel hfuel k2 v2
      [(k1, (0 : Int), (0 : Int) + ((pat k2).length : Int))] (pat k2) 0
      (strFind_pat_self k2 hk2)
      (by
        rw [hrep2]
        exact strFind_none_of_char v2 (pat k2) '{' (by simp [pat]) hv2.1)
    rw [hrep2] at h
    rw [h]
    show some (adjust _ _ _ _ ++ _, v2) = _
    rw [show adjust [(k1, (0 : Int), (0 : Int) + ((pat k2).length : Int))]
        ((0 : Nat) : Int) (((pat k2).length : Nat) : Int) ((v2.length : Nat) : Int) =
        [(k1, (0 : Int), (0 : Int) + ((pat k2).length : Int))] from by
      show (if (0 : Int) > ((0 : Nat) : Int) then _ else _) :: adjust [] _ _ _ = _
      rw [if_neg (by omega)]
      rfl]
    rfl
  refine ⟨[(k1, (0 : Int), (0 : Int) + ((pat k2).length : Int)),
      (k2, (0 : Int), (0 : Int) + (v2.length : Int))], ?_, ?_⟩
  · unfold render
    show (match substLoop fuel k1 (pat k2) [] (pat k1) with
      | none => none
      | some st => renderSteps fuel [(k2, v2)] st).map
        (fun st : List Region × List Char => (st.2, st.1)) = _
    rw [hs1]
    show (match substLoop fuel k2 v2 [(k1, (0 : Int), (0 : Int) + ((pat k2).length : Int))]
        (pat k2) with
      | none => none
      | some st => renderSteps fuel [] st).map
        (fun st : List Region × List Char => (st.2, st.1)) = _
    rw [hs2]
    rfl
  · apply List.mem_cons_of_mem
    apply List.mem_singleton.mpr
    simp

/-- C3 witness: the amended re-scan theorem applied to keys `a`, `b` and
content `X`. -/
theorem c3_witness :
    ∃ regions, render 2 (pat ['a']) [(['a'], pat ['b']), (['b'], ['X'])] =
        some (['X'], regions) ∧
      (['b'], (0 : Int), ((1 : Nat) : Int)) ∈ regions := by
  have h := c3_rescan ['a'] ['b'] ['X'] (by decide) (by decide) (by decide) (by decide) 2
    (by decide)
  simpa using h

theorem occ_getElem (text pt : List Char) (p : Nat) (h : occursAt text pt p) (i : Nat)
    (hi : i < pt.length) : text[p + i]? = pt[i]? := by
  rcases (occursAt_iff_parts _ _ _).mp h with ⟨x, y, rfl, rfl⟩
  rw [List.append_assoc, List.getElem?_append_right (by omega)]
  have he : x.length + i - x.length = i := by omega
  rw [he, List.getElem?_append_left hi]

/-- The inner characters of a placeholder occurrence can never be `{`. -/
theorem occ_inside_contra (w : Key) (hw : braceFree w) (text : List Char) (p : Nat)
    (hocc : occursAt text (pat w) p) (d : Nat) (hd1 : 0 < d) (hd2 : d < (pat w).length)
    (hchar : text[p + d]? = some '{') : False := by
  rw [occ_getElem text (pat w) p hocc d hd2] at hchar
  obtain ⟨d', rfl⟩ : ∃ d', d = d' + 1 := ⟨d - 1, by omega⟩
  rw [show pat w = '{' :: (w ++ ['}']) from rfl, List.getElem?_cons_succ] at hchar
  rw [pat_length] at hd2
  rcases lt_or_ge d' w.length with hlt | hge
  · rw [List.getElem?_append_left hlt] at hchar
    rcases List.getElem?_eq_some.mp hchar with ⟨hb, he⟩
    exact hw.1 (he ▸ List.getElem_mem hb)
  · have hd' : d' = w.length := by omega
    rw [List.getElem?_append_right hge, hd'] at hchar
    rw [Nat.sub_self] at hchar
    injection hchar with he
    exact absurd he (by decide)

/-- Occurrences of placeholders for distinct brace-free keys are disjoint. -/
theorem occ_disjoint (u k : Key) (hu : braceFree u) (hk : braceFree k) (hne : u ≠ k)
    (text : List Char) (q m : Nat)
    (h1 : occursAt text (pat u) q) (h2 : occursAt text (pat k) m) :
    q + (pat u).length ≤ m ∨ m + (pat k).length ≤ q := by
  rcases lt_trichotomy q m with hlt | heq | hgt
  · by_cases hsep : q + (pat u).length ≤ m
    · exact Or.inl hsep
    · exfalso
      have hchar : text[m + 0]? = some '{' := by
        rw [occ_getElem text (pat k) m h2 0 (by simp [pat])]
        simp [pat]
      rw [Nat.add_zero] at hchar
      have hm : m = q + (m - q) := by omega
      rw [hm] at hchar
      exact occ_inside_contra u hu text q h1 (m - q) (by omega) (by omega) hchar
  · exfalso
    obtain ⟨t1, ht1⟩ := h1.1
    obtain ⟨t2, ht2⟩ := h2.1
    rw [heq] at ht1
    rw [← ht2] at ht1
    rw [show pat u = '{' :: (u ++ ['}']) from rfl,
      show pat k = '{' :: (k ++ ['}']) from rfl] at ht1
    rw [List.cons_append, List.cons_append] at ht1
    injection ht1 with hh ht
    rw [List.append_assoc, List.append_assoc] at ht
    rw [List.singleton_append, List.singleton_append] at ht
    obtain ⟨huk, -⟩ := delim_eq u k t1 t2 hu.2 hk.2 ht
    exact hne huk
  · by_cases hsep : m + (pat k).length ≤ q
    · exact Or.inr hsep
    · exfalso
      have hchar : text[q + 0]? = some '{' := by
        rw [occ_getElem text (pat u) q h1 0 (by simp [pat])]
        simp [pat]
      rw [Nat.add_zero] at hchar
      have hq : q = m + (q - m) := by omega
      rw [hq] at hchar
      exact occ_inside_contra k hk text m h2 (q - m) (by omega) (by omega) hchar

/-- One substitution step never destroys an occurrence of the placeholder of
a different brace-free key: the occurrence survives, possibly shifted. -/
theorem occ_survives (u k : Key) (hu : braceFree u) (hk : braceFree k) (hne : u ≠ k)
    (v text : List Char) (m q : Nat)
    (hm : occursAt text (pat k) m) (hq : occursAt text (pat u) q) :
    ∃ q', occursAt (replaceAt text m (pat k).length v) (pat u) q' := by
  rcases occ_disjoint u k hu hk hne text q m hq hm with hsep | hsep
  · -- the occurrence lies wholly before the replaced segment
    rcases (occursAt_iff_parts _ _ _).mp hm with ⟨x', y', he', hx'⟩
    rcases (occursAt_iff_parts _ _ _).mp hq with ⟨x, y, he, hx⟩
    have hxy : x' = x ++ pat u ++ (y.take (m - q - (pat u).length)) := by
      have h1 : x' = text.take m := by
        rw [he', ← hx']
        rw [List.append_assoc, List.take_left]
      rw [h1, he]
      rw [List.append_assoc, List.take_append_eq_append_take,
        List.take_of_length_le (by omega), List.take_append_eq_append_take,
        List.take_of_length_le (by omega)]
      rw [← hx, List.append_assoc]
    refine ⟨q, ?_⟩
    rw [he', ← hx', replaceAt_parts, hxy]
    rw [occursAt_iff_parts]
    refine ⟨x, y.take (m - q - (pat u).length) ++ v ++ y', ?_, hx⟩
    simp [List.append_assoc]
  · -- the occurrence lies wholly after the replaced segment
    rcases (occursAt_iff_parts _ _ _).mp hm with ⟨x', y', he', hx'⟩
    rcases (occursAt_iff_parts _ _ _).mp hq with ⟨x, y, he, hx⟩
    have hsplit : x' ++ (pat k ++ y') = x ++ (pat u ++ y) := by
      rw [← List.append_assoc, ← List.append_assoc, ← he', ← he]
    obtain ⟨e, hxe, hey⟩ := split_append hsplit (by omega)
    have hlen_e : (pat k).length ≤ e.length := by
      have h1 : x.length = x'.length + e.length := by
        rw [hxe, List.length_append]
      omega
    obtain ⟨e2, he2, hy'2⟩ := split_append hey hlen_e
    have hy' : y' = e2 ++ pat u ++ y := by
      rw [hy'2, List.append_assoc]
    refine ⟨(x' ++ v ++ e2).length, ?_⟩
    rw [he', ← hx', replaceAt_parts, hy']
    rw [occursAt_iff_parts]
    exact ⟨x' ++ v ++ e2, y, by simp [List.append_assoc], rfl⟩

theorem adjust_keys (R : List Region) (idx origLen newLen : Int) :
    (adjust R idx origLen newLen).map Prod.fst = R.map Prod.fst := by
  rw [adjust_eq_map, List.map_map]
  apply List.map_congr_left
  intro r _
  by_cases h : r.2.1 > idx
  · simp only [Function.comp, if_pos h]
  · simp only [Function.comp, if_neg h]

/-- The per-key loop preserves occurrences of foreign placeholders and only
records regions for its own key. -/
theorem substLoop_preserves (u k : Key) (hu : braceFree u) (hk : braceFree k) (hne : u ≠ k)
    (v : List Char) :
    ∀ fuel R text res, substLoop fuel k v R text = some res →
      (∃ q, occursAt text (pat u) q) →
      (∃ q', occursAt res.2 (pat u) q') ∧
      ∀ r ∈ res.1, r.1 ∈ R.map Prod.fst ∨ r.1 = k := by
  intro fuel
  induction fuel with
  | zero => intro R text res h; cases h
  | succ f ih =>
      intro R text res h hq
      rw [substLoop] at h
      cases hf : strFind text (pat k) 0 with
      | none =>
          rw [hf] at h
          injection h with h1
          rw [← h1]
          exact ⟨hq, fun r hr => Or.inl (List.mem_map_of_mem Prod.fst hr)⟩
      | some m =>
          rw [hf] at h
          have hm : occursAt text (pat k) m := (strFind_some text (pat k) m hf).1
          obtain ⟨q, hq⟩ := hq
          obtain ⟨hocc', hkeys⟩ := ih _ _ res h (occ_survives u k hu hk hne v text m q hm hq)
          refine ⟨hocc', fun r hr => ?_⟩
          rcases hkeys r hr with h1 | h1
          · rw [List.map_append, adjust_keys] at h1
            rcases List.mem_append.mp h1 with h2 | h2
            · exact Or.inl h2
            · rcases List.mem_singleton.mp h2 with h3
              exact Or.inr h3
          · exact Or.inr h1

/-- The outer loop preserves occurrences of placeholders for keys not in the
mapping, and records no region under such a key. -/
theorem renderSteps_preserves (u : Key) (hu : braceFree u) :
    ∀ (L : List (Key × List Char)) (fuel : Nat) (st res : List Region × List Char),
      (∀ kv ∈ L, braceFree kv.1) → u ∉ L.map Prod.fst →
      renderSteps fuel L st = some res →
      (∃ q, occursAt st.2 (pat u) q) → (∀ r ∈ st.1, r.1 ≠ u) →
      (∃ q', occursAt res.2 (pat u) q') ∧ ∀ r ∈ res.1, r.1 ≠ u := by
  intro L
  induction L with
  | nil =>
      intro fuel st res _ _ h hq hkeys
      injection h with h1
      rw [← h1]
      exact ⟨hq, hkeys⟩
  | cons kv rest ih =>
      obtain ⟨k, v⟩ := kv
      intro fuel st res hKeys hnotin h hq hkeys
      have hk : braceFree k := hKeys (k, v) (List.mem_cons_self _ _)
      have hne : u ≠ k := by
        intro he
        apply hnotin
        rw [List.map_cons, he]
        exact List.mem_cons_self _ _
      obtain ⟨R, text⟩ := st
      rw [show renderSteps fuel ((k, v) :: rest) (R, text)
          = (match substLoop fuel k v R text with
            | none => none
            | some st => renderSteps fuel rest st) from rfl] at h
      cases hs : substLoop fuel k v R text with
      | none => rw [hs] at h; cases h
      | some st1 =>
          rw [hs] at h
          obtain ⟨hocc1, hkeys1⟩ := substLoop_preserves u k hu hk hne v fuel R text st1 hs hq
          refine ih fuel st1 res (fun kv hm => hKeys kv (List.mem_cons_of_mem _ hm))
            (fun hm => hnotin (List.mem_cons_of_mem _ hm)) h hocc1 ?_
          intro r hr
          rcases hkeys1 r hr with h1 | h1
          · rcases List.mem_map.mp h1 with ⟨r0, hr0, he0⟩
            rw [← he0]
            exact hkeys r0 hr0
          · rw [h1]
            exact fun he => hne he.symm

/-- C9: a placeholder `{u}` present in the template whose brace-free
identifier `u` has no entry in the content mapping (whose keys are
brace-free identifiers) is passed through: whenever render completes, the
placeholder still occurs verbatim in the output text, and no region is
recorded under `u`.  (No error is raised: the only failure mode of the
model is non-termination, excluded by the completion hypothesis.) -/
theorem c9_passthrough (T : List Char) (L : List (Key × List Char)) (u : Key) (fuel : Nat)
    (hu : braceFree u) (hKeys : ∀ kv ∈ L, braceFree kv.1) (hnotin : u ∉ L.map Prod.fst)
    (q0 : Nat) (hq0 : occursAt T (pat u) q0)
    (text : List Char) (regions : List Region)
    (hrender : render fuel T L = some (text, regions)) :
    (∃ q', occursAt text (pat u) q') ∧ ∀ r ∈ regions, r.1 ≠ u := by
  unfold render at hrender
  rcases Option.map_eq_some'.mp hrender with ⟨st, hst, he⟩
  obtain ⟨hocc, hkeys⟩ := renderSteps_preserves u hu L fuel ([], T) st hKeys hnotin hst
    ⟨q0, hq0⟩ (fun r hr => absurd hr (List.not_mem_nil r))
  injection he with he1 he2
  rw [← he1, ← he2]
  exact ⟨hocc, hkeys⟩

/-- C9 witness: the passthrough theorem applied to the template `{unknown}`
with the empty content mapping: the output still contains `{unknown}` and no
region is recorded. -/
theorem c9_witness :
    (∃ q', occursAt ['{', 'u', 'n', 'k', 'n', 'o', 'w', 'n', '}']
      (pat ['u', 'n', 'k', 'n', 'o', 'w', 'n']) q') ∧
    ∀ r ∈ ([] : List Region), r.1 ≠ ['u', 'n', 'k', 'n', 'o', 'w', 'n'] :=
  c9_passthrough ['{', 'u', 'n', 'k', 'n', 'o', 'w', 'n', '}'] []
    ['u', 'n', 'k', 'n', 'o', 'w', 'n'] 1 (by decide) (by decide) (by decide)
    0 (by decide) ['{', 'u', 'n', 'k', 'n', 'o', 'w', 'n', '}'] [] (by decide)

/-- Each substitution of a brace-free value for a placeholder with a
brace-free key removes exactly one `{` from the text. -/
theorem count_replace (text : List Char) (k : Key) (v : List Char) (m : Nat)
    (hocc : occursAt text (pat k) m) (hk : braceFree k) (hv : braceFree v) :
    (replaceAt text m (pat k).length v).count '{' + 1 = text.count '{' := by
  rcases (occursAt_iff_parts _ _ _).mp hocc with ⟨x, y, rfl, rfl⟩
  rw [replaceAt_parts]
  rw [List.append_assoc, List.append_assoc, List.count_append, List.count_append,
    List.count_append, List.count_append]
  have hpat : (pat k).count '{' = 1 := by
    rw [show pat k = '{' :: (k ++ ['}']) from rfl]
    rw [List.count_cons_self, List.count_append, List.count_eq_zero.mpr hk.1]
    decide
  have hval : v.count '{' = 0 := List.count_eq_zero.mpr hv.1
  rw [hpat, hval]
  ring

/-- The per-key loop terminates whenever key and value are brace-free: each
iteration strictly decreases the number of `{` in the text. -/
theorem substLoop_terminates (k : Key) (v : List Char) (hk : braceFree k) (hv : braceFree v) :
    ∀ fuel (R : List Region) (text : List Char), text.count '{' < fuel →
      ∃ res, substLoop fuel k v R text = some res ∧ res.2.count '{' ≤ text.count '{' := by
  intro fuel
  induction fuel with
  | zero => intro R text h; omega
  | succ f ih =>
      intro R text h
      cases hf : strFind text (pat k) 0 with
      | none =>
          refine ⟨(R, text), ?_, le_refl _⟩
          show (match strFind text (pat k) 0 with
            | none => some (R, text)
            | some m => substLoop f k v _ _) = _
          rw [hf]
      | some m =>
          have hocc : occursAt text (pat k) m := (strFind_some text (pat k) m hf).1
          have hcnt := count_replace text k v m hocc hk hv
          obtain ⟨res, hres, hle⟩ := ih (adjust R (m : Int) ((pat k).length : Int) (v.length : Int)
              ++ [(k, (m : Int), (m : Int) + (v.length : Int))])
            (replaceAt text m (pat k).length v) (by omega)
          refine ⟨res, ?_, by omega⟩
          show (match strFind text (pat k) 0 with
            | none => some (R, text)
            | some m => substLoop f k v
                (adjust R (m : Int) ((pat k).length : Int) (v.length : Int)
                  ++ [(k, (m : Int), (m : Int) + (v.length : Int))])
                (replaceAt text m (pat k).length v)) = _
          rw [hf]
          exact hres

theorem renderSteps_terminates (L : List (Key × List Char))
    (hKeys : ∀ kv ∈ L, braceFree kv.1) (hVals : ∀ kv ∈ L, braceFree kv.2) :
    ∀ (fuel : Nat) (st : List Region × List Char), st.2.count '{' < fuel →
      ∃ res, renderSteps fuel L st = some res := by
  induction L with
  | nil => intro fuel st _; exact ⟨st, rfl⟩
  | cons kv rest ih =>
      obtain ⟨k, v⟩ := kv
      intro fuel st hcnt
      obtain ⟨R, text⟩ := st
      have hcnt' : text.count '{' < fuel := hcnt
      obtain ⟨st1, hst1, hle⟩ := substLoop_terminates k v
        (hKeys (k, v) (List.mem_cons_self _ _)) (hVals (k, v) (List.mem_cons_self _ _))
        fuel R text hcnt'
      obtain ⟨res, hres⟩ := ih (fun kv hm => hKeys kv (List.mem_cons_of_mem _ hm))
        (fun kv hm => hVals kv (List.mem_cons_of_mem _ hm)) fuel st1 (by omega)
      refine ⟨res, ?_⟩
      show (match substLoop fuel k v R text with
        | none => none
        | some st => renderSteps fuel rest st) = some res
      rw [hst1]
      exact hres

/-- The self-referential loop: substituting `{a}` for itself leaves the text
unchanged, so the loop never terminates regardless of fuel. -/
theorem substLoop_self (fuel : Nat) :
    ∀ R, substLoop fuel ['a'] (pat ['a']) R (pat ['a']) = none := by
  induction fuel with
  | zero => intro R; rfl
  | succ f ih =>
      intro R
      show (match strFind (pat ['a']) (pat ['a']) 0 with
        | none => some (R, pat ['a'])
        | some m => substLoop f ['a'] (pat ['a'])
            (adjust R (m : Int) ((pat ['a']).length : Int) (((pat ['a']).length : Nat) : Int)
              ++ [(['a'], (m : Int), (m : Int) + (((pat ['a']).length : Nat) : Int))])
            (replaceAt (pat ['a']) m (pat ['a']).length (pat ['a']))) = none
      rw [show strFind (pat ['a']) (pat ['a']) 0 = some 0 from by decide]
      show substLoop f ['a'] (pat ['a'])
          (adjust R (((0 : Nat) : Int)) ((pat ['a']).length : Int) ((pat ['a']).length : Int)
            ++ [(['a'], ((0 : Nat) : Int), ((0 : Nat) : Int) + ((pat ['a']).length : Int))])
          (replaceAt (pat ['a']) 0 (pat ['a']).length (pat ['a'])) = none
      rw [show replaceAt (pat ['a']) 0 (pat ['a']).length (pat ['a']) = pat ['a'] from by decide]
      exact ih _

/-- C10 (amended): the per-key loop (and hence render) terminates whenever
all keys and values of the mapping are brace-free — any fuel exceeding the
number of `{` in the template suffices; and with a value containing its own
key's placeholder (content `a` mapped to `{a}`) the loop never terminates.
The claim's weaker precondition (values merely avoiding the literal
placeholder of every key) does not guarantee termination, see the
counterexample. -/
theorem c10_termination :
    (∀ (T : List Char) (L : List (Key × List Char)) (fuel : Nat),
      (∀ kv ∈ L, braceFree kv.1) → (∀ kv ∈ L, braceFree kv.2) →
      T.count '{' < fuel → ∃ res, render fuel T L = some res) ∧
    (∀ fuel : Nat, render fuel (pat ['a']) [(['a'], pat ['a'])] = none) := by
  constructor
  · intro T L fuel hKeys hVals hcnt
    obtain ⟨res, hres⟩ := renderSteps_terminates L hKeys hVals fuel ([], T) hcnt
    refine ⟨(res.2, res.1), ?_⟩
    unfold render
    rw [hres]
    rfl
  · intro fuel
    unfold render
    show (match substLoop fuel ['a'] (pat ['a']) [] (pat ['a']) with
      | none => none
      | some st => renderSteps fuel [] st).map
        (fun st : List Region × List Char => (st.2, st.1)) = none
    rw [substLoop_self fuel []]
    rfl

/-- C10 witness: the termination half of the amended claim applied to the
template `{a}` with brace-free content `a` mapped to `x`. -/
theorem c10_witness :
    ∃ res, render 2 ['{', 'a', '}'] [(['a'], ['x'])] = some res :=
  c10_termination.1 ['{', 'a', '}'] [(['a'], ['x'])] 2 (by decide) (by decide) (by decide)

/-- Building blocks of the diverging instance: the text alternates blocks
`{x` and `y}`. -/
def blockA : List Char := ['{', 'x']

def blockB : List Char := ['y', '}']

def reps (blk : List Char) : Nat → List Char
  | 0 => []
  | n + 1 => blk ++ reps blk n

def keyXY : Key := ['x', 'y']

/-- Value `y}y}{x{x`: it does not contain the placeholder `{xy}`, yet each
substitution re-creates an occurrence across the splice boundaries. -/
def valXY : List Char := ['y', '}', 'y', '}', '{', 'x', '{', 'x']

def FT (n m : Nat) : List Char :=
  reps blockB n ++ blockA ++ blockA ++ blockB ++ reps blockA m ++ blockB ++ blockA ++ blockA

def GT (n m : Nat) : List Char :=
  reps blockB n ++ blockA ++ blockB ++ blockB ++ reps blockA (m + 2) ++ blockB ++ blockA ++ blockA

theorem occ_zero (t pt : List Char) : occursAt t pt 0 ↔ pt <+: t := by
  unfold occursAt
  rw [List.drop_zero]
  exact ⟨fun h => h.1, fun h => ⟨h, Nat.zero_le _⟩⟩

theorem strFind_zero (t pt : List Char) (h : pt <+: t) : strFind t pt 0 = some 0 :=
  strFind_eq_some_of t pt 0 ((occ_zero t pt).mpr h) (fun q hq => absurd hq (Nat.not_lt_zero q))

theorem occ_cons (c : Char) (t pt : List Char) (p : Nat) :
    occursAt (c :: t) pt (p + 1) ↔ occursAt t pt p := by
  unfold occursAt
  rw [List.drop_succ_cons, List.length_cons]
  exact ⟨fun h => ⟨h.1, by omega⟩, fun h => ⟨h.1, by omega⟩⟩

theorem strFind_cons_of_not (c : Char) (t pt : List Char) (h : ¬ pt <+: (c :: t)) :
    strFind (c :: t) pt 0 = (strFind t pt 0).map (· + 1) := by
  cases hf : strFind t pt 0 with
  | none =>
      show strFind (c :: t) pt 0 = none
      apply strFind_eq_none_of
      intro q hocc
      cases q with
      | zero => exact h ((occ_zero _ _).mp hocc)
      | succ p => exact strFind_none t pt hf p ((occ_cons c t pt p).mp hocc)
  | some p =>
      obtain ⟨hocc, hmin⟩ := strFind_some t pt p hf
      show strFind (c :: t) pt 0 = some (p + 1)
      apply strFind_eq_some_of
      · exact (occ_cons c t pt p).mpr hocc
      · intro q hq
        cases q with
        | zero => exact fun hocc' => h ((occ_zero _ _).mp hocc')
        | succ p' => exact fun hocc' => hmin p' (by omega) ((occ_cons c t pt p').mp hocc')

theorem not_pfx_head (a b : Char) (l1 l2 : List Char) (h : a ≠ b) :
    ¬ (a :: l1 <+: b :: l2) := by
  rintro ⟨t, ht⟩
  rw [List.cons_append] at ht
  injection ht with h1
  exact h h1

theorem not_pfx_xy (rest : List Char) : ¬ (pat keyXY <+: '{' :: 'x' :: '{' :: rest) := by
  rintro ⟨t, ht⟩
  have ht' : '{' :: 'x' :: 'y' :: '}' :: t = '{' :: 'x' :: '{' :: rest := ht
  injection ht' with h1 ht'
  injection ht' with h2 ht'
  injection ht' with h3
  exact absurd h3 (by decide)

theorem strFind_FT (n m : Nat) :
    strFind (FT n m) (pat keyXY) 0 = some (2 * n + 2) ∧
    strFind (GT n m) (pat keyXY) 0 = some (2 * n) := by
  induction n with
  | zero =>
      constructor
      · have e0 : FT 0 m = '{' :: 'x' :: '{' :: 'x' :: 'y' :: '}' ::
            (reps blockA m ++ (blockB ++ (blockA ++ blockA))) := by
          simp [FT, reps, blockA, blockB, List.append_assoc]
        have h1 : ¬ (pat keyXY <+: '{' :: 'x' :: '{' :: 'x' :: 'y' :: '}' ::
            (reps blockA m ++ (blockB ++ (blockA ++ blockA)))) := not_pfx_xy _
        have h2 : ¬ (pat keyXY <+: 'x' :: '{' :: 'x' :: 'y' :: '}' ::
            (reps blockA m ++ (blockB ++ (blockA ++ blockA)))) :=
          not_pfx_head '{' 'x' _ _ (by decide)
        have hz : strFind ('{' :: 'x' :: 'y' :: '}' ::
            (reps blockA m ++ (blockB ++ (blockA ++ blockA)))) (pat keyXY) 0 = some 0 :=
          strFind_zero _ _ ⟨reps blockA m ++ (blockB ++ (blockA ++ blockA)), rfl⟩
        rw [e0, strFind_cons_of_not _ _ _ h1, strFind_cons_of_not _ _ _ h2, hz]
        rfl
      · have e0 : GT 0 m = '{' :: 'x' :: 'y' :: '}' :: 'y' :: '}' ::
            (reps blockA (m + 2) ++ (blockB ++ (blockA ++ blockA))) := by
          simp [GT, reps, blockA, blockB, List.append_assoc]
        rw [e0]
        exact strFind_zero _ _
          ⟨'y' :: '}' :: (reps blockA (m + 2) ++ (blockB ++ (blockA ++ blockA))), rfl⟩
  | succ n ihn =>
      have e1 : FT (n + 1) m = 'y' :: '}' :: FT n m := by
        simp [FT, reps, blockB, List.append_assoc]
      have e2 : GT (n + 1) m = 'y' :: '}' :: GT n m := by
        simp [GT, reps, blockB, List.append_assoc]
      constructor
      · have h1 : ¬ (pat keyXY <+: 'y' :: '}' :: FT n m) :=
          not_pfx_head '{' 'y' _ _ (by decide)
        have h2 : ¬ (pat keyXY <+: '}' :: FT n m) :=
          not_pfx_head '{' '}' _ _ (by decide)
        rw [e1, strFind_cons_of_not _ _ _ h1, strFind_cons_of_not _ _ _ h2, ihn.1]
        show some (2 * n + 2 + 1 + 1) = some (2 * (n + 1) + 2)
        exact congrArg some (by ring)
      · have h1 : ¬ (pat keyXY <+: 'y' :: '}' :: GT n m) :=
          not_pfx_head '{' 'y' _ _ (by decide)
        have h2 : ¬ (pat keyXY <+: '}' :: GT n m) :=
          not_pfx_head '{' '}' _ _ (by decide)
        rw [e2, strFind_cons_of_not _ _ _ h1, strFind_cons_of_not _ _ _ h2, ihn.2]
        show some (2 * n + 1 + 1) = some (2 * (n + 1))
        exact congrArg some (by ring)

theorem reps_comm (blk : List Char) (n : Nat) : reps blk n ++ blk = blk ++ reps blk n := by
  induction n with
  | zero => simp [reps]
  | succ k ih =>
      show (blk ++ reps blk k) ++ blk = blk ++ (blk ++ reps blk k)
      rw [List.append_assoc, ih]

theorem reps_two (blk : List Char) (n : Nat) :
    reps blk (n + 2) = reps blk n ++ (blk ++ blk) := by
  show blk ++ (blk ++ reps blk n) = _
  rw [← reps_comm, ← List.append_assoc, ← reps_comm, List.append_assoc]

theorem reps_length (blk : List Char) (n : Nat) : (reps blk n).length = n * blk.length := by
  induction n with
  | zero => simp [reps]
  | succ k ih =>
      show (blk ++ reps blk k).length = (k + 1) * blk.length
      rw [List.length_append, ih]
      ring

theorem FT_step (n m : Nat) :
    replaceAt (FT n m) (2 * n + 2) (pat keyXY).length valXY = GT n m := by
  have hx : (reps blockB n ++ blockA).length = 2 * n + 2 := by
    rw [List.length_append, reps_length]
    show n * 2 + 2 = 2 * n + 2
    omega
  have hform : FT n m = (reps blockB n ++ blockA) ++ pat keyXY ++
      (reps blockA m ++ blockB ++ blockA ++ blockA) := by
    rw [show pat keyXY = blockA ++ blockB from rfl]
    simp [FT, List.append_assoc]
  rw [hform, ← hx, replaceAt_parts]
  rw [show valXY = blockB ++ (blockB ++ (blockA ++ blockA)) from rfl]
  rw [show GT n m = reps blockB n ++ blockA ++ blockB ++ blockB ++ reps blockA (m + 2)
      ++ blockB ++ blockA ++ blockA from rfl]
  rw [show reps blockA (m + 2) = blockA ++ (blockA ++ reps blockA m) from rfl]
  simp [List.append_assoc]

theorem GT_step (n m : Nat) :
    replaceAt (GT n m) (2 * n) (pat keyXY).length valXY = FT (n + 2) (m + 2) := by
  have hx : (reps blockB n).length = 2 * n := by
    rw [reps_length]
    show n * 2 = 2 * n
    omega
  have hform : GT n m = reps blockB n ++ pat keyXY ++
      (blockB ++ reps blockA (m + 2) ++ blockB ++ blockA ++ blockA) := by
    rw [show pat keyXY = blockA ++ blockB from rfl]
    simp [GT, List.append_assoc]
  rw [hform, ← hx, replaceAt_parts]
  rw [show valXY = blockB ++ (blockB ++ (blockA ++ blockA)) from rfl]
  rw [show FT (n + 2) (m + 2) = reps blockB (n + 2) ++ blockA ++ blockA ++ blockB
      ++ reps blockA (m + 2) ++ blockB ++ blockA ++ blockA from rfl]
  rw [reps_two blockB n]
  simp [List.append_assoc]

/-- The per-key loop cycles forever through the `FT`/`GT` text family. -/
theorem substLoop_FT_none (fuel : Nat) :
    (∀ n m (R : List Region), substLoop fuel keyXY valXY R (FT n m) = none) ∧
    (∀ n m (R : List Region), substLoop fuel keyXY valXY R (GT n m) = none) := by
  induction fuel with
  | zero => exact ⟨fun _ _ _ => rfl, fun _ _ _ => rfl⟩
  | succ f ih =>
      constructor
      · intro n m R
        show (match strFind (FT n m) (pat keyXY) 0 with
          | none => some (R, FT n m)
          | some p => substLoop f keyXY valXY
              (adjust R (p : Int) ((pat keyXY).length : Int) ((valXY.length : Nat) : Int)
                ++ [(keyXY, (p : Int), (p : Int) + ((valXY.length : Nat) : Int))])
              (replaceAt (FT n m) p (pat keyXY).length valXY)) = none
        rw [(strFind_FT n m).1]
        show substLoop f keyXY valXY _ (replaceAt (FT n m) (2 * n + 2) (pat keyXY).length valXY)
          = none
        rw [FT_step n m]
        exact ih.2 n m _
      · intro n m R
        show (match strFind (GT n m) (pat keyXY) 0 with
          | none => some (R, GT n m)
          | some p => substLoop f keyXY valXY
              (adjust R (p : Int) ((pat keyXY).length : Int) ((valXY.length : Nat) : Int)
                ++ [(keyXY, (p : Int), (p : Int) + ((valXY.length : Nat) : Int))])
              (replaceAt (GT n m) p (pat keyXY).length valXY)) = none
        rw [(strFind_FT n m).2]
        show substLoop f keyXY valXY _ (replaceAt (GT n m) (2 * n) (pat keyXY).length valXY)
          = none
        rw [GT_step n m]
        exact ih.1 (n + 2) (m + 2) _

/-- C10 counterexample: the template `y}y}{x{xy}y}{x{x` with the single-entry
mapping `xy` mapped to `y}y}{x{x` satisfies the claim's precondition (the
value does not contain the placeholder `{xy}` of the only key), yet the
substitution loop never terminates, for any amount of fuel. -/
theorem c10_counterexample :
    strFind valXY (pat keyXY) 0 = none ∧
    FT 2 0 = ['y', '}', 'y', '}', '{', 'x', '{', 'x', 'y', '}', 'y', '}', '{', 'x', '{', 'x'] ∧
    ∀ fuel : Nat, render fuel (FT 2 0) [(keyXY, valXY)] = none := by
  refine ⟨by decide, by decide, fun fuel => ?_⟩
  unfold render
  show (match substLoop fuel keyXY valXY [] (FT 2 0) with
    | none => none
    | some st => renderSteps fuel [] st).map
      (fun st : List Region × List Char => (st.2, st.1)) = none
  rw [(substLoop_FT_none fuel).1 2 0 []]
  rfl

/-- Observable state of a view: buffer text and the named region sets added
via `add_regions` (always singleton lists in this code). -/
structure IView where
  text : List Char
  named : List (List Char × (Int × Int))
deriving DecidableEq

/-- Model of `view.erase_regions(name)`. -/
def eraseRegions (v : IView) (name : List Char) : IView :=
  { v with named := v.named.filter (fun e => decide (e.1 ≠ name)) }

/-- Model of `view.add_regions(name, [region])`: replaces whatever set was
stored under `name`. -/
def addRegions (v : IView) (name : List Char) (rg : Int × Int) : IView :=
  { v with named := v.named.filter (fun e => decide (e.1 ≠ name)) ++ [(name, rg)] }

/-- Namespace prefix `git_savvy_interface.` prepended by
`GsNewContentAndRegionsCommand.run` and `Interface.update` when naming
regions on the view. -/
def nsTag : List Char :=
  ['g', 'i', 't', '_', 's', 'a', 'v', 'v', 'y', '_', 'i', 'n', 't', 'e', 'r', 'f', 'a',
    'c', 'e', '.']

/-- Model of `Interface.clear_regions`: for each recorded region it calls
`erase_regions(key)` with the bare key — not the prefixed name under which
the regions were actually added. -/
def clear_regions (regions : List Region) (v : IView) : IView :=
  regions.foldl (fun acc r => eraseRegions acc r.1) v

/-- Model of `GsNewContentAndRegionsCommand.run`: replace the buffer with the
content, then add each region under its prefixed name. -/
def gsNewContentAndRegions (content : List Char) (regions : List Region) (v : IView) : IView :=
  regions.foldl (fun acc r => addRegions acc (nsTag ++ r.1) (r.2.1, r.2.2))
    { v with text := content }

/-- Outcome of a full `Interface.render` call: the interface's `self.regions`
bookkeeping and the view state at the moment the call ends (normally or by
an exception escaping). -/
inductive RenderOutcome where
  | raised (regions : List Region) (v : IView)
  | hung
  | done (regions : List Region) (v : IView)
deriving DecidableEq

/-- Model of the full `Interface.render` method.  `prev` is `self.regions`
on entry.  The method first calls `clear_regions()` when `self.regions` is
non-empty, then sets `self.regions = []`, then invokes the producers
(`get_keyed_content`); `content? = none` models a producer raising there,
in which case the exception propagates with the state reached so far.
Otherwise substitution runs and `gs_new_content_and_regions` applies text
and regions to the view. -/
def renderFull (fuel : Nat) (prev : List Region) (template : List Char)
    (content? : Option (List (Key × List Char))) (v : IView) : RenderOutcome :=
  let v1 := if prev.isEmpty then v else clear_regions prev v
  match content? with
  | none => .raised [] v1
  | some content =>
      match renderSteps fuel content ([], template) with
      | none => .hung
      | some st => .done st.1 (gsNewContentAndRegions st.2 st.1 v1)

theorem clear_regions_noop (prev : List Region) :
    ∀ v : IView, (∀ r ∈ prev, ∀ e ∈ v.named, e.1 ≠ r.1) → clear_regions prev v = v := by
  induction prev with
  | nil => intro v _; rfl
  | cons r rest ih =>
      intro v h
      have he : eraseRegions v r.1 = v := by
        unfold eraseRegions
        have hf : v.named.filter (fun e => decide (e.1 ≠ r.1)) = v.named := by
          apply List.filter_eq_self.mpr
          intro e he
          exact decide_eq_true (h r (List.mem_cons_self _ _) e he)
        rw [hf]
      show clear_regions rest (eraseRegions v r.1) = v
      rw [he]
      exact ih v (fun r' hr' e he' => h r' (List.mem_cons_of_mem _ hr') e he')

/-- C4 counterexample: with a prior region recorded under key `k` and its
named span stored under the prefixed name, a producer raising during render
leaves the view untouched but the interface's stored region list has already
been reset to `[]` — contradicting the claim that no mutation of the
region bookkeeping has been applied when the exception propagates. -/
theorem c4_counterexample :
    renderFull 1 [(['k'], 0, 1)] ['T'] none
        { text := ['A'], named := [(nsTag ++ ['k'], (0, 1))] } =
      RenderOutcome.raised [] { text := ['A'], named := [(nsTag ++ ['k'], (0, 1))] } ∧
    ([] : List Region) ≠ [(['k'], 0, 1)] :=
  ⟨by decide, by decide⟩

/-- C4 (amended): when a producer raises, the exception propagates with the
buffer text and the view's named region spans untouched (content computation
precedes every buffer mutation, and `clear_regions` erases only bare-key
names, which are never used for spans), but the interface's stored region
list has already been reset to empty. -/
theorem c4_raise_state (fuel : Nat) (prev : List Region) (template : List Char) (v : IView)
    (hnames : ∀ r ∈ prev, ∀ e ∈ v.named, e.1 ≠ r.1) :
    renderFull fuel prev template none v = .raised [] v := by
  show RenderOutcome.raised [] (if prev.isEmpty then v else clear_regions prev v)
    = RenderOutcome.raised [] v
  by_cases hp : prev.isEmpty
  · rw [if_pos hp]
  · rw [if_neg hp, clear_regions_noop prev v hnames]

/-- C4 witness: the raise-state theorem at a concrete prior render state. -/
theorem c4_witness :
    renderFull 1 [(['k'], 0, 1)] ['T'] none
        { text := ['A'], named := [(nsTag ++ ['k'], (0, 1))] } =
      RenderOutcome.raised []
        { text := ['A'], named := [(nsTag ++ ['k'], (0, 1))] } :=
  c4_raise_state 1 [(['k'], 0, 1)] ['T']
    { text := ['A'], named := [(nsTag ++ ['k'], (0, 1))] } (by decide)

/-- C5: the code evaluated at a failing input.  A first render records key
`old` and adds the span `git_savvy_interface.old` to the view; a second
render whose content no longer contains `old` calls
`erase_regions("old")` — the bare key — so the stale prefixed span
survives the second render, contradicting the claim that all named spans
of the previous render are cleared. -/
theorem c5_stale_region :
    ∃ (regions1 : List Region) (v1 v2 : IView),
      renderFull 2 [] (pat ['o', 'l', 'd']) (some [(['o', 'l', 'd'], ['V'])])
          { text := [], named := [] } = RenderOutcome.done regions1 v1 ∧
      renderFull 2 regions1 ['Z'] (some []) v1 = RenderOutcome.done [] v2 ∧
      (nsTag ++ ['o', 'l', 'd']) ∈ v2.named.map Prod.fst ∧
      v2.text = ['Z'] :=
  ⟨[(['o', 'l', 'd'], 0, 1)],
    { text := ['V'], named := [(nsTag ++ ['o', 'l', 'd'], (0, 1))] },
    { text := ['Z'], named := [(nsTag ++ ['o', 'l', 'd'], (0, 1))] },
    by decide, by decide, by decide, by decide⟩

/-- Producer results, modelled by the data the producer functions return: a
plain string, or a composite pair of a sub-template and nested keyed
producers. -/
inductive PRes where
  | str (s : List Char)
  | comp (sub : List Char) (nested : List (Key × PRes))

/-- Model of `keyed_content[key] = value` on an `OrderedDict`: an existing
key keeps its position and gets the new value; a new key is appended. -/
def odSet (m : List (Key × PRes)) (k : Key) (p : PRes) : List (Key × PRes) :=
  if m.any (fun e => decide (e.1 = k)) then m.map (fun e => if e.1 = k then (k, p) else e)
  else m ++ [(k, p)]

/-- Model of the expansion loop of `Interface.get_keyed_content`: iterate
over the ordered mapping (appended entries are reached too, as with the
linked-list `OrderedDict` iterator), replacing each composite entry by its
sub-template and storing each nested producer's output under its own key. -/
def gkcLoop : Nat → List (Key × PRes) → Nat → Option (List (Key × PRes))
  | 0, _, _ => none
  | fuel + 1, m, i =>
      match m[i]? with
      | none => some m
      | some (_, PRes.str _) => gkcLoop fuel m (i + 1)
      | some (k, PRes.comp sub nested) =>
          gkcLoop fuel
            (nested.foldl (fun acc kp => odSet acc kp.1 kp.2) (odSet m k (PRes.str sub)))
            (i + 1)

def toContent : List (Key × PRes) → Option (List (Key × List Char))
  | [] => some []
  | (k, PRes.str s) :: rest => (toContent rest).map (fun tl => (k, s) :: tl)
  | (_, PRes.comp _ _) :: _ => none

/-- Model of `Interface.get_keyed_content`: run the producers (their results
are the `PRes` values) and expand composites into the flat mapping. -/
def get_keyed_content (fuel : Nat) (producersIn : List (Key × PRes)) :
    Option (List (Key × List Char)) :=
  (gkcLoop fuel producersIn 0).bind toContent

/-- Model of a full render pass of an interface: compute the keyed content,
then substitute it into the template. -/
def renderInterface (fuel : Nat) (template : List Char) (producersIn : List (Key × PRes)) :
    Option (List Char × List Region) :=
  match get_keyed_content fuel producersIn with
  | none => none
  | some content => render fuel template content

def sectionKey : Key := ['s', 'e', 'c', 't', 'i', 'o', 'n']

def innerKey : Key := ['i', 'n', 'n', 'e', 'r']

/-- Sub-template `[{inner}]` returned by the composite producer. -/
def subTemplate : List Char := ['[', '{', 'i', 'n', 'n', 'e', 'r', '}', ']']

theorem adjust_singleton_le (r : Region) (idx origLen newLen : Int) (h : ¬ r.2.1 > idx) :
    adjust [r] idx origLen newLen = [r] := by
  show (if r.2.1 > idx then (r.1, r.2.1 + (newLen - origLen), r.2.2 + (newLen - origLen))
    else r) :: adjust [] idx origLen newLen = [r]
  rw [if_neg h]
  rfl

/-- C6: an interface whose single producer is the composite for key
`section` returning `([{inner}], [producer for inner])`, rendered over the
template `{section}` in one pass, succeeds: the nested producer's output is
added under its own key to the flat mapping, the text contains `[` + inner's
content + `]` at `section`'s placeholder location, and a separate region
tagged `inner` is recorded. -/
theorem c6_composite (ic : List Char) (hic : braceFree ic) :
    get_keyed_content 3 [(sectionKey, PRes.comp subTemplate [(innerKey, PRes.str ic)])] =
      some [(sectionKey, subTemplate), (innerKey, ic)] ∧
    renderInterface 3 (pat sectionKey)
        [(sectionKey, PRes.comp subTemplate [(innerKey, PRes.str ic)])] =
      some ('[' :: (ic ++ [']']),
        [(sectionKey, 0, 9), (innerKey, 1, 1 + (ic.length : Int))]) := by
  have hgkc : get_keyed_content 3
      [(sectionKey, PRes.comp subTemplate [(innerKey, PRes.str ic)])] =
      some [(sectionKey, subTemplate), (innerKey, ic)] := rfl
  refine ⟨hgkc, ?_⟩
  have hs1 : substLoop 3 sectionKey subTemplate [] (pat sectionKey) =
      some ([(sectionKey, (0 : Int), (0 : Int) + ((subTemplate.length : Nat) : Int))],
        subTemplate) := by
    have h := substLoop_once 3 (by omega) sectionKey subTemplate [] (pat sectionKey) 0
      (strFind_pat_self sectionKey (by decide))
      (by
        rw [replaceAt_whole]
        decide)
    rw [replaceAt_whole] at h
    rw [h]
    rfl
  have hrep2 : replaceAt subTemplate 1 (pat innerKey).length ic = '[' :: (ic ++ [']']) := rfl
  have hs2 : substLoop 3 innerKey ic
      [(sectionKey, (0 : Int), (0 : Int) + ((subTemplate.length : Nat) : Int))] subTemplate =
      some ([(sectionKey, (0 : Int), (0 : Int) + ((subTemplate.length : Nat) : Int)),
          (innerKey, ((1 : Nat) : Int), ((1 : Nat) : Int) + ((ic.length : Nat) : Int))],
        '[' :: (ic ++ [']'])) := by
    have hafter : strFind (replaceAt subTemplate 1 (pat innerKey).length ic)
        (pat innerKey) 0 = none := by
      rw [hrep2]
      apply strFind_none_of_char _ _ '{' (by simp [pat])
      intro hm
      rcases List.mem_cons.mp hm with he | hm2
      · exact absurd he (by decide)
      · rcases List.mem_append.mp hm2 with h3 | h3
        · exact hic.1 h3
        · rcases List.mem_singleton.mp h3 with he
          exact absurd he (by decide)
    have h := substLoop_once 3 (by omega) innerKey ic
      [(sectionKey, (0 : Int), (0 : Int) + ((subTemplate.length : Nat) : Int))] subTemplate 1
      (by decide) hafter
    rw [hrep2] at h
    rw [h]
    rw [adjust_singleton_le _ _ _ _ (by decide)]
    rfl
  show (match get_keyed_content 3
      [(sectionKey, PRes.comp subTemplate [(innerKey, PRes.str ic)])] with
    | none => none
    | some content => render 3 (pat sectionKey) content) = _
  rw [hgkc]
  show (match substLoop 3 sectionKey subTemplate [] (pat sectionKey) with
    | none => none
    | some st => renderSteps 3 [(innerKey, ic)] st).map
      (fun st : List Region × List Char => (st.2, st.1)) = _
  rw [hs1]
  show (match substLoop 3 innerKey ic
      [(sectionKey, (0 : Int), (0 : Int) + ((subTemplate.length : Nat) : Int))] subTemplate with
    | none => none
    | some st => renderSteps 3 [] st).map
      (fun st : List Region × List Char => (st.2, st.1)) = _
  rw [hs2]
  rfl

/-- C6 witness: the composite-flattening theorem at inner content `X`. -/
theorem c6_witness :
    get_keyed_content 3 [(sectionKey, PRes.comp subTemplate [(innerKey, PRes.str ['X'])])] =
      some [(sectionKey, subTemplate), (innerKey, ['X'])] ∧
    renderInterface 3 (pat sectionKey)
        [(sectionKey, PRes.comp subTemplate [(innerKey, PRes.str ['X'])])] =
      some ('[' :: (['X'] ++ [']']),
        [(sectionKey, 0, 9), (innerKey, 1, 1 + ((['X'] : List Char).length : Int))]) :=
  c6_composite ['X'] (by decide)

end GitSavvy
